import Mathlib

/-!
Verification of the CSP crossword solving engine in
`src/CS50AI/crossword/generate.py` (class `CrosswordCreator`).

The puzzle model (class `Crossword` of `crossword.py`) is an external
collaborator that is not part of the analysed source; it is modelled from
the specification's interface description (variables, per-variable length,
symmetric overlap map, vocabulary, `neighbors`).

Embedding conventions:
* variables are natural-number identifiers;
* words are lists of characters;
* Python sets/dicts of the solver are modelled as lists / association lists
  with a fixed deterministic iteration order, as the specification requires
  ("deterministic iteration is required ... implementers should use an
  insertion-ordered or sorted structure");
* the mutable domain store `self.domains` is a function from variables to
  word lists, threaded explicitly;
* Python exceptions (KeyError from `set.remove`, IndexError from string
  subscripts, TypeError from subscripting `None`, UnboundLocalError) are
  modelled with `Except PyErr`; the unbounded `while`/recursion is given
  explicit fuel, whose exhaustion is the distinguished error `outOfFuel`;
* `arcs.pop()` pops the last element of the list, `append` appends at the
  end, exactly as in the Python source.
-/

inductive PyErr where
  | keyError
  | typeError
  | indexError
  | unboundLocal
  | outOfFuel
deriving DecidableEq, Repr

abbrev Word := List Char

/-- Per-variable candidate sets, i.e. the mutable `self.domains` mapping. -/
abbrev Doms := Nat → List Word

/-- `self.domains[v] = ws` (all other entries unchanged). -/
def updateD (d : Doms) (v : Nat) (ws : List Word) : Doms :=
  fun u => if u = v then ws else d u

/-- Modelled from the spec: the external Puzzle Model (`crossword.py`, not in
the analysed sources) exposes `variables()`, per-variable length,
`overlap(x, y) -> optional (indexIntoX, indexIntoY)` and the vocabulary. -/
structure Crossword where
  /-- `crossword.variables` (the name `variables` is a reserved keyword in
  Lean 4, hence `vars`). -/
  vars : List Nat
  varLength : Nat → Nat
  overlaps : Nat → Nat → Option (Nat × Nat)
  words : List Word

/-- Modelled from the spec: `neighbors(variable) -> set of Variable (all
variables sharing a cell)`; a pair shares a cell exactly when the overlap
map has an entry for it. -/
def Crossword.neighbors (cw : Crossword) (x : Nat) : List Nat :=
  cw.vars.filter (fun y => y != x && (cw.overlaps x y).isSome)

/-- One iteration of `enforce_node_consistency`: keep only the words of the
variable's length. -/
def nodeStep (cw : Crossword) (d : Doms) (var : Nat) : Doms :=
  updateD d var ((d var).filter (fun w => w.length == cw.varLength var))

/-- `CrosswordCreator.enforce_node_consistency`: for each variable remove
every word whose length differs from the variable's length. -/
def enforce_node_consistency (cw : Crossword) (d : Doms) : Doms :=
  cw.vars.foldl (nodeStep cw) d

/-- `word[i]` on a Python string: the character, or IndexError when out of
range. -/
def strIdx (w : Word) (i : Nat) : Except PyErr Char :=
  match w.get? i with
  | some c => Except.ok c
  | none => Except.error PyErr.indexError

/-- Inner loop of `revise` over y's domain, accumulating `options`. -/
def countOptionsGo (ix iy : Nat) (xw : Word) : List Word → Nat → Except PyErr Nat
  | [], acc => Except.ok acc
  | yw :: rest, acc => do
    let cx ← strIdx xw ix
    let cy ← strIdx yw iy
    countOptionsGo ix iy xw rest (if cx = cy ∧ xw ≠ yw then acc + 1 else acc)

/-- `options`, the number of words `y_word` in y's domain with
`x_word[overlap[0]] == y_word[overlap[1]] and x_word != y_word`. -/
def countOptions (ix iy : Nat) (yDom : List Word) (xw : Word) : Except PyErr Nat :=
  countOptionsGo ix iy xw yDom 0

/-- Outer loop of `revise`: remove from (a copy of) x's domain every word
with `options == 0`, recording whether any removal happened. -/
def reviseFilter (ix iy : Nat) (yDom : List Word) : List Word → Except PyErr (List Word × Bool)
  | [] => Except.ok ([], false)
  | xw :: rest => do
    let n ← countOptions ix iy yDom xw
    let (keep, rev) ← reviseFilter ix iy yDom rest
    if n = 0 then pure (keep, true) else pure (xw :: keep, rev)

/-- `CrosswordCreator.revise(x, y)`: subscripting the overlap entry raises
TypeError when the pair has no overlap. -/
def revise (cw : Crossword) (d : Doms) (x y : Nat) : Except PyErr (Bool × Doms) :=
  match cw.overlaps x y with
  | none => Except.error PyErr.typeError
  | some (ix, iy) => do
    let (newDom, revised) ← reviseFilter ix iy (d y) (d x)
    pure (revised, updateD d x newDom)

/-- The `while` loop of `CrosswordCreator.ac3`: pop the last arc, revise,
return `false` on an emptied domain, otherwise re-enqueue `(z, x)` for every
neighbor `z` of `x` other than `y` (`set.remove(y)` would raise KeyError if
`y` were no neighbor of `x`). -/
def ac3Loop (cw : Crossword) : Nat → Doms → List (Nat × Nat) → Except PyErr (Bool × Doms)
  | 0, _, _ => Except.error PyErr.outOfFuel
  | fuel+1, d, arcs =>
    match arcs.getLast? with
    | none => Except.ok (true, d)
    | some (x, y) => do
      let rest := arcs.dropLast
      let (revised, d') ← revise cw d x y
      if revised then
        if (d' x).length = 0 then Except.ok (false, d')
        else
          if (cw.neighbors x).contains y then
            ac3Loop cw fuel d'
              (rest ++ ((cw.neighbors x).filter (fun z => z != y)).map (fun z => (z, x)))
          else Except.error PyErr.keyError
      else ac3Loop cw fuel d' rest

/-- `CrosswordCreator.ac3(arcs)`: when `arcs` is `None` the queue starts
with every arc `(x, y)` for each variable `x` and each of its neighbors. -/
def ac3 (cw : Crossword) (fuel : Nat) (d : Doms) (arcs0 : Option (List (Nat × Nat))) :
    Except PyErr (Bool × Doms) :=
  let arcs := match arcs0 with
    | none => cw.vars.flatMap (fun x => (cw.neighbors x).map (fun y => (x, y)))
    | some l => l
  ac3Loop cw fuel d arcs

/-- Assignment: mapping from every variable to a word or `None`, with
insertion-ordered keys (a Python dict). -/
abbrev Assignment := List (Nat × Option Word)

/-- `assignment[v]` (defaulting to `None` when `v` is not a key; from
`solve` the keys are always exactly the puzzle's variables). -/
def lookupA (a : Assignment) (v : Nat) : Option Word :=
  match a.find? (fun p => p.1 == v) with
  | some p => p.2
  | none => none

/-- `assignment[v] = w`, updating the value in place (key order kept). -/
def aset (a : Assignment) (v : Nat) (w : Option Word) : Assignment :=
  a.map (fun p => if p.1 == v then (p.1, w) else p)

/-- `CrosswordCreator.assignment_complete`. -/
def assignment_complete (a : Assignment) : Bool :=
  a.all (fun p => p.2.isSome)

/-- Inner loop of `consistent`: check variable `x` (assigned `xw`) against
each of its neighbors in turn, returning `false` on the first mismatching
overlap character or identical word. -/
def consistentNb (cw : Crossword) (a : Assignment) (x : Nat) (xw : Word) :
    List Nat → Except PyErr Bool
  | [] => Except.ok true
  | y :: ys =>
    match lookupA a y with
    | none => consistentNb cw a x xw ys
    | some yw =>
      match cw.overlaps x y with
      | none => Except.error PyErr.typeError
      | some (ix, iy) => do
        let cx ← strIdx xw ix
        let cy ← strIdx yw iy
        if cx ≠ cy ∨ xw = yw then Except.ok false
        else consistentNb cw a x xw ys

/-- Outer loop of `consistent` over the assignment's entries (unassigned
variables impose no constraint). -/
def consistentGo (cw : Crossword) (a : Assignment) :
    List (Nat × Option Word) → Except PyErr Bool
  | [] => Except.ok true
  | (_, none) :: rest => consistentGo cw a rest
  | (x, some xw) :: rest => do
    let ok ← consistentNb cw a x xw (cw.neighbors x)
    if ok then consistentGo cw a rest else Except.ok false

/-- `CrosswordCreator.consistent(assignment)`. -/
def consistent (cw : Crossword) (a : Assignment) : Except PyErr Bool :=
  consistentGo cw a a

/-- Innermost loop of `order_domain_values`: count, over the given neighbor
domain, the words that mismatch `w` at the overlap or equal it. -/
def odvCountWords (i j : Nat) (w : Word) : List Word → Nat → Except PyErr Nat
  | [], acc => Except.ok acc
  | wn :: rest, acc => do
    let c1 ← strIdx w i
    let c2 ← strIdx wn j
    odvCountWords i j w rest (if c1 ≠ c2 ∨ w = wn then acc + 1 else acc)

/-- Middle loop of `order_domain_values` over the neighbors of `var`. -/
def odvCountNbs (cw : Crossword) (d : Doms) (var : Nat) (w : Word) :
    List Nat → Nat → Except PyErr Nat
  | [], acc => Except.ok acc
  | nb :: rest, acc =>
    match cw.overlaps var nb with
    | none => Except.error PyErr.typeError
    | some (i, j) => do
      let acc2 ← odvCountWords i j w (d nb) acc
      odvCountNbs cw d var w rest acc2

/-- `options_removed` in `order_domain_values`: over every neighbor and every
word of the neighbor's domain, count the pairs that mismatch at the overlap
or are textually identical. -/
def odvCount (cw : Crossword) (d : Doms) (var : Nat) (w : Word) : Except PyErr Nat :=
  odvCountNbs cw d var w (cw.neighbors var) 0

/-- Stable insertion (after all entries with a count less than or equal),
used to model Python's stable `sorted(..., key=count)`. -/
def insSorted (p : Word × Nat) : List (Word × Nat) → List (Word × Nat)
  | [] => [p]
  | q :: qs => if q.2 ≤ p.2 then q :: insSorted p qs else p :: q :: qs

/-- Stable ascending sort by the associated count. -/
def stableSortByCount (l : List (Word × Nat)) : List (Word × Nat) :=
  l.foldl (fun acc p => insSorted p acc) []

/-- Build the `sorted_domain_dict` entries `(word, options_removed)` for each
word of the domain of `var`. -/
def odvPairs (cw : Crossword) (d : Doms) (var : Nat) :
    List Word → Except PyErr (List (Word × Nat))
  | [] => Except.ok []
  | w :: ws => do
    let n ← odvCount cw d var w
    let rest ← odvPairs cw d var ws
    pure ((w, n) :: rest)

/-- `CrosswordCreator.order_domain_values(var, assignment)` (the assignment
argument is unused, as in the source). -/
def order_domain_values (cw : Crossword) (d : Doms) (var : Nat) (_a : Assignment) :
    Except PyErr (List Word) := do
  let counts ← odvPairs cw d var (d var)
  pure ((stableSortByCount counts).map (fun p => p.1))

/-- Loop body of `select_unassigned_variable`: update the tracked
`(min_dom_vals, selected_var)` pair for one assignment entry (assigned
entries are skipped; `none` models the initial `float("inf")` state in which
no variable has been selected yet). -/
def suvStep (cw : Crossword) (d : Doms) (sel : Option (Nat × Nat)) (p : Nat × Option Word) :
    Option (Nat × Nat) :=
  match p.2 with
  | some _ => sel
  | none =>
    match sel with
    | none => some ((d p.1).length, p.1)
    | some (mn, sv) =>
      if (d p.1).length < mn then some ((d p.1).length, p.1)
      else if (d p.1).length = mn ∧ (cw.neighbors p.1).length > (cw.neighbors sv).length then
        some ((d p.1).length, p.1)
      else sel

/-- `CrosswordCreator.select_unassigned_variable(assignment)`: fold over the
assignment's entries tracking `(min_dom_vals, selected_var)`; a `none` result
models the UnboundLocalError case of no unassigned variable. -/
def select_unassigned_variable (cw : Crossword) (d : Doms) (a : Assignment) : Option Nat :=
  (a.foldl (suvStep cw d) none).map (fun q => q.2)

/-- One iteration of the eager root loop (lines 270-272): when the domain of
this entry's variable is a singleton, `pop` it into the assignment. -/
def seedStep (acc : Assignment × Doms) (p : Nat × Option Word) : Assignment × Doms :=
  if (acc.2 p.1).length = 1 then
    match acc.2 p.1 with
    | w :: rest => (aset acc.1 p.1 (some w), updateD acc.2 p.1 rest)
    | [] => acc
  else acc

/-- Lines 265-272 of `backtrack`: on the root call (`assignment == dict()`),
map every variable to `None`, then eagerly `pop` every singleton domain into
the assignment. -/
def backtrackRootSeed (cw : Crossword) (d : Doms) : Assignment × Doms :=
  let a0 : Assignment := cw.vars.map (fun v => (v, none))
  a0.foldl seedStep (a0, d)

/-- One iteration of the forced-inference loop (lines 294-296): when this
entry's variable is unassigned and its domain is a singleton, `pop` it into
the assignment. -/
def inferStep (acc : Assignment × Doms) (p : Nat × Option Word) : Assignment × Doms :=
  if (lookupA acc.1 p.1).isNone ∧ (acc.2 p.1).length = 1 then
    match acc.2 p.1 with
    | w :: rest => (aset acc.1 p.1 (some w), updateD acc.2 p.1 rest)
    | [] => acc
  else acc

/-- Lines 293-296 of `backtrack`: after a successful propagation, `pop` every
still-unassigned variable whose domain has exactly one value into the
assignment. -/
def applyInferences (a : Assignment) (d : Doms) : Assignment × Doms :=
  a.foldl inferStep (a, d)

/-- The candidate loop of `backtrack` (lines 279-303).  `recur` is the
recursive `self.backtrack` call at the remaining fuel.  The result is
`(returned-a-complete-assignment?, assignment-dict-state, domains-state)`;
the assignment dict is mutated in place in Python and hence shared with the
caller even on failure.  Note that `self.domains[var].remove(value)` on the
last line of the loop body runs for every candidate — also when the
consistency check failed — and raises KeyError when the value has already
been pruned from the domain. -/
def btLoop (cw : Crossword) (fuel : Nat)
    (recur : Doms → Assignment → Except PyErr (Bool × Assignment × Doms))
    (d : Doms) (a : Assignment) (var : Nat) :
    List Word → Except PyErr (Bool × Assignment × Doms)
  | [] => Except.ok (false, a, d)
  | value :: rest => do
    let temp := aset a var (some value)
    let ok ← consistent cw temp
    if ok then do
      let a1 := aset a var (some value)
      let arcs := (cw.neighbors var).map (fun y => (y, var))
      let (inferences, d1) ← ac3 cw fuel d (some arcs)
      let (a2, d2) := if inferences then applyInferences a1 d1 else (a1, d1)
      let (flag, a3, d3) ← recur d2 a2
      if flag then Except.ok (true, a3, d3)
      else
        if (d3 var).contains value then
          btLoop cw fuel recur (updateD d3 var ((d3 var).erase value)) a3 var rest
        else Except.error PyErr.keyError
    else
      if (d var).contains value then
        btLoop cw fuel recur (updateD d var ((d var).erase value)) a var rest
      else Except.error PyErr.keyError

/-- `CrosswordCreator.backtrack(assignment)`, with explicit fuel for the
recursion. -/
def backtrack (cw : Crossword) : Nat → Doms → Assignment → Except PyErr (Bool × Assignment × Doms)
  | 0, _, _ => Except.error PyErr.outOfFuel
  | fuel+1, d, a =>
    let (a, d) := if a.isEmpty then backtrackRootSeed cw d else (a, d)
    if assignment_complete a then Except.ok (true, a, d)
    else
      match select_unassigned_variable cw d a with
      | none => Except.error PyErr.unboundLocal
      | some var => do
        let vals ← order_domain_values cw d var a
        btLoop cw fuel (backtrack cw fuel) d a var vals

/-- `CrosswordCreator.solve()`: seed every domain with the full vocabulary
(`__init__`), enforce node consistency, run `ac3()` ignoring its boolean
result, and return `backtrack(dict())` — an assignment or `None`. -/
def solve (cw : Crossword) (fuel : Nat) : Except PyErr (Option Assignment) := do
  let d0 : Doms := fun _ => cw.words
  let d1 := enforce_node_consistency cw d0
  let (_, d2) ← ac3 cw fuel d1 none
  let (flag, a, _) ← backtrack cw fuel d2 []
  pure (if flag then some a else none)

/-! ## Well-formedness of puzzles, and basic facts -/

/-- Well-formed puzzle model: distinct variables and vocabulary entries, no
self-overlap, and a symmetric overlap map whose offsets are in range (spec:
"Symmetric: overlap(x,y) and overlap(y,x) refer to the same cell but with
index order swapped"). -/
def Crossword.wf (cw : Crossword) : Prop :=
  cw.vars.Nodup ∧ cw.words.Nodup ∧
  ∀ x ∈ cw.vars, ∀ y ∈ cw.vars,
    (x = y → cw.overlaps x y = none) ∧
    ((cw.overlaps x y).isSome →
      cw.overlaps y x = some ((cw.overlaps x y).iget.2, (cw.overlaps x y).iget.1) ∧
      (cw.overlaps x y).iget.1 < cw.varLength x ∧
      (cw.overlaps x y).iget.2 < cw.varLength y)

instance (cw : Crossword) : Decidable cw.wf := by
  unfold Crossword.wf
  infer_instance

/-- Every word of every variable's domain has the variable's length (holds
after node consistency). -/
def LenOK (cw : Crossword) (d : Doms) : Prop :=
  ∀ v ∈ cw.vars, ∀ w ∈ d v, w.length = cw.varLength v

instance (cw : Crossword) (d : Doms) : Decidable (LenOK cw d) := by
  unfold LenOK
  infer_instance

theorem updateD_self (d : Doms) (v : Nat) (ws : List Word) : updateD d v ws v = ws := by
  simp [updateD]

theorem updateD_ne (d : Doms) (v : Nat) (ws : List Word) {u : Nat} (h : u ≠ v) :
    updateD d v ws u = d u := by
  simp [updateD, h]

theorem mem_neighbors (cw : Crossword) (x y : Nat) :
    y ∈ cw.neighbors x ↔ y ∈ cw.vars ∧ y ≠ x ∧ (cw.overlaps x y).isSome := by
  simp [Crossword.neighbors, List.mem_filter]

theorem wf_overlap_symm {cw : Crossword} (hwf : cw.wf) {x y : Nat} (hx : x ∈ cw.vars)
    (hy : y ∈ cw.vars) {i j : Nat} (h : cw.overlaps x y = some (i, j)) :
    cw.overlaps y x = some (j, i) := by
  have h2 := ((hwf.2.2 x hx y hy).2 (by simp [h])).1
  simpa [h] using h2

theorem wf_overlap_lt {cw : Crossword} (hwf : cw.wf) {x y : Nat} (hx : x ∈ cw.vars)
    (hy : y ∈ cw.vars) {i j : Nat} (h : cw.overlaps x y = some (i, j)) :
    i < cw.varLength x ∧ j < cw.varLength y := by
  have h2 := (hwf.2.2 x hx y hy).2 (by simp [h])
  constructor
  · simpa [h] using h2.2.1
  · simpa [h] using h2.2.2

/-! ## Characterisation of `revise` -/

/-- A word `w` of x's domain is supported by y's domain at overlap `(ix, iy)`
when some word there matches it at the overlap and differs from it. -/
def hasSupport (ix iy : Nat) (yDom : List Word) (w : Word) : Bool :=
  yDom.any (fun yw => decide (w.get? ix = yw.get? iy ∧ w ≠ yw))

theorem ok_bind {α β : Type} (a : α) (f : α → Except PyErr β) :
    (Except.ok a >>= f) = f a := rfl

theorem error_bind {α β : Type} (e : PyErr) (f : α → Except PyErr β) :
    ((Except.error e : Except PyErr α) >>= f) = Except.error e := rfl

theorem strIdx_ok {w : Word} {i : Nat} (h : i < w.length) :
    strIdx w i = Except.ok (w.get ⟨i, h⟩) := by
  unfold strIdx
  rw [List.get?_eq_get h]

theorem countOptionsGo_ok {ix iy : Nat} {w : Word} (hx : ix < w.length) :
    ∀ (yDom : List Word), (∀ yw ∈ yDom, iy < yw.length) → ∀ acc : Nat,
    countOptionsGo ix iy w yDom acc =
      Except.ok (acc + yDom.countP (fun yw => decide (w.get? ix = yw.get? iy ∧ w ≠ yw))) := by
  intro yDom
  induction yDom with
  | nil => intro _ acc; simp [countOptionsGo]
  | cons yw rest ih =>
    intro hy acc
    have hyw : iy < yw.length := hy yw (by simp)
    have hrest : ∀ yw' ∈ rest, iy < yw'.length := fun yw' h' => hy yw' (by simp [h'])
    have heq : (w.get? ix = yw.get? iy ∧ w ≠ yw) ↔
        (w.get ⟨ix, hx⟩ = yw.get ⟨iy, hyw⟩ ∧ w ≠ yw) := by
      rw [List.get?_eq_get hx, List.get?_eq_get hyw]
      simp
    rw [countOptionsGo, strIdx_ok hx, strIdx_ok hyw, ok_bind, ok_bind,
      ih hrest _, List.countP_cons]
    by_cases hd : (w.get? ix = yw.get? iy ∧ w ≠ yw)
    · rw [if_pos (heq.mp hd), if_pos (decide_eq_true hd)]
      congr 1
      omega
    · rw [if_neg (fun hc => hd (heq.mpr hc)),
        if_neg (by rw [decide_eq_false hd]; exact Bool.false_ne_true)]
      simp

theorem countOptions_ok {ix iy : Nat} {w : Word} {yDom : List Word} (hx : ix < w.length)
    (hy : ∀ yw ∈ yDom, iy < yw.length) :
    countOptions ix iy yDom w =
      Except.ok (yDom.countP (fun yw => decide (w.get? ix = yw.get? iy ∧ w ≠ yw))) := by
  simpa [countOptions] using countOptionsGo_ok hx yDom hy 0

theorem hasSupport_false_iff_countP {ix iy : Nat} {yDom : List Word} {w : Word} :
    hasSupport ix iy yDom w = false ↔
      yDom.countP (fun yw => decide (w.get? ix = yw.get? iy ∧ w ≠ yw)) = 0 := by
  rw [List.countP_eq_zero]
  unfold hasSupport
  rw [← Bool.not_eq_true, List.any_eq_true]
  simp

theorem reviseFilter_ok {ix iy : Nat} {yDom : List Word} (hy : ∀ yw ∈ yDom, iy < yw.length) :
    ∀ (l : List Word), (∀ w ∈ l, ix < w.length) →
    reviseFilter ix iy yDom l =
      Except.ok (l.filter (hasSupport ix iy yDom), l.any (fun w => !hasSupport ix iy yDom w)) := by
  intro l
  induction l with
  | nil => intro _; simp [reviseFilter]
  | cons xw rest ih =>
    intro hxl
    have hx : ix < xw.length := hxl xw (by simp)
    have hrest : ∀ w ∈ rest, ix < w.length := fun w h' => hxl w (by simp [h'])
    rw [reviseFilter, countOptions_ok hx hy, ok_bind, ih hrest, ok_bind]
    dsimp only
    by_cases hn : yDom.countP (fun yw => decide (xw.get? ix = yw.get? iy ∧ xw ≠ yw)) = 0
    · have hsf : hasSupport ix iy yDom xw = false := hasSupport_false_iff_countP.mpr hn
      rw [if_pos hn]
      simp [List.filter_cons, hsf]
      rfl
    · have hst : hasSupport ix iy yDom xw = true := by
        cases hcase : hasSupport ix iy yDom xw with
        | true => rfl
        | false => exact absurd (hasSupport_false_iff_countP.mp hcase) hn
      rw [if_neg hn]
      simp [List.filter_cons, hst]
      rfl

theorem revise_ok {cw : Crossword} {d : Doms} {x y ix iy : Nat}
    (hov : cw.overlaps x y = some (ix, iy))
    (hx : ∀ w ∈ d x, ix < w.length) (hy : ∀ w ∈ d y, iy < w.length) :
    revise cw d x y = Except.ok
      ((d x).any (fun w => !hasSupport ix iy (d y) w),
       updateD d x ((d x).filter (hasSupport ix iy (d y)))) := by
  unfold revise
  rw [hov]
  dsimp only
  rw [reviseFilter_ok hy (d x) hx, ok_bind]
  rfl

theorem hasSupport_iff {ix iy : Nat} {yDom : List Word} {w : Word} :
    hasSupport ix iy yDom w = true ↔ ∃ w' ∈ yDom, w.get? ix = w'.get? iy ∧ w ≠ w' := by
  unfold hasSupport
  rw [List.any_eq_true]
  simp

theorem filter_eq_self_of_any_not_false {p : Word → Bool} {l : List Word}
    (h : l.any (fun w => !p w) = false) : l.filter p = l := by
  rw [List.filter_eq_self]
  intro a ha
  have := List.any_eq_false.mp h a ha
  simpa using this

/-- C6: characterisation of `revise(x, y)` at an overlapping pair: it removes
from x's domain exactly the unsupported words, leaves every other domain (in
particular y's) unchanged, returns `true` iff x's domain shrank, and on an
empty x-domain removes nothing and returns `false`. -/
theorem claim6_revise_spec (cw : Crossword) (d : Doms) (x y ix iy : Nat)
    (hov : cw.overlaps x y = some (ix, iy)) (hxy : x ≠ y)
    (hx : ∀ w ∈ d x, ix < w.length) (hy : ∀ w ∈ d y, iy < w.length) :
    ∃ b : Bool, ∃ d' : Doms,
      revise cw d x y = Except.ok (b, d') ∧
      (∀ w ∈ d x, (w ∈ d' x ↔ ∃ w' ∈ d y, w.get? ix = w'.get? iy ∧ w ≠ w')) ∧
      (∀ w, w ∈ d' x → w ∈ d x) ∧
      d' y = d y ∧
      (∀ v, v ≠ x → d' v = d v) ∧
      (b = true ↔ (d' x).length < (d x).length) ∧
      (d x = [] → b = false ∧ d' x = d x) := by
  refine ⟨(d x).any (fun w => !hasSupport ix iy (d y) w),
    updateD d x ((d x).filter (hasSupport ix iy (d y))), revise_ok hov hx hy, ?_, ?_, ?_, ?_, ?_, ?_⟩
  · intro w hw
    rw [updateD_self, List.mem_filter, ← hasSupport_iff]
    simp [hw]
  · intro w hw
    rw [updateD_self] at hw
    exact (List.mem_filter.mp hw).1
  · exact updateD_ne d x _ (Ne.symm hxy)
  · intro v hv
    exact updateD_ne d x _ hv
  · rw [updateD_self]
    constructor
    · intro hb
      obtain ⟨w, hw, hns⟩ := List.any_eq_true.mp hb
      exact List.length_filter_lt_length_iff_exists.mpr ⟨w, hw, by simpa using hns⟩
    · intro hlt
      obtain ⟨w, hw, hns⟩ := List.length_filter_lt_length_iff_exists.mp hlt
      exact List.any_eq_true.mpr ⟨w, hw, by simpa using hns⟩
  · intro hnil
    refine ⟨by simp [hnil], ?_⟩
    rw [updateD_self, hnil]
    simp

/-- Puzzle used for the C6 witness: two crossing slots of length 2 whose
first letters must agree. -/
def cw6w : Crossword :=
  { vars := [0, 1]
    varLength := fun _ => 2
    overlaps := fun x y => if x = 0 && y = 1 || x = 1 && y = 0 then some (0, 0) else none
    words := [['a','a'], ['b','a'], ['a','b']] }

def d6w : Doms := fun v => if v = 0 then [['a','a'], ['b','a']] else if v = 1 then [['a','b']] else []

theorem claim6_witness :
    cw6w.overlaps 0 1 = some (0, 0) ∧ (0 : Nat) ≠ 1 ∧
    (∀ w ∈ d6w 0, 0 < w.length) ∧ (∀ w ∈ d6w 1, 0 < w.length) ∧
    ∃ b : Bool, ∃ d' : Doms,
      revise cw6w d6w 0 1 = Except.ok (b, d') ∧
      (∀ w ∈ d6w 0, (w ∈ d' 0 ↔ ∃ w' ∈ d6w 1, w.get? 0 = w'.get? 0 ∧ w ≠ w')) ∧
      (∀ w, w ∈ d' 0 → w ∈ d6w 0) ∧
      d' 1 = d6w 1 ∧
      (∀ v, v ≠ 0 → d' v = d6w v) ∧
      (b = true ↔ (d' 0).length < (d6w 0).length) ∧
      (d6w 0 = [] → b = false ∧ d' 0 = d6w 0) :=
  ⟨rfl, by decide, by decide, by decide,
    claim6_revise_spec cw6w d6w 0 1 0 0 rfl (by decide) (by decide) (by decide)⟩

theorem getLast?_append_single (l : List (Nat × Nat)) (a : Nat × Nat) :
    (l ++ [a]).getLast? = some a := by simp

theorem dropLast_append_single (l : List (Nat × Nat)) (a : Nat × Nat) :
    (l ++ [a]).dropLast = l := by simp

/-- C7: step behaviour of the `ac3` work queue.  Popping the arc `(x, y)`
runs `revise(x, y)`; an emptied domain returns `false` at once; a revision
with a non-empty domain enqueues exactly the arcs `(z, x)` for the neighbors
`z ≠ y` of `x`; no revision just continues; the emptied queue returns `true`;
and a call with no initial arcs starts from every ordered neighboring pair. -/
theorem claim7_ac3_steps (cw : Crossword) (fuel : Nat) :
    (∀ d : Doms, ac3Loop cw (fuel + 1) d [] = Except.ok (true, d)) ∧
    (∀ (d : Doms) (q : List (Nat × Nat)) (x y : Nat) (b : Bool) (d' : Doms),
      revise cw d x y = Except.ok (b, d') →
      (b = false → ac3Loop cw (fuel + 1) d (q ++ [(x, y)]) = ac3Loop cw fuel d' q) ∧
      (b = true → (d' x).length = 0 →
        ac3Loop cw (fuel + 1) d (q ++ [(x, y)]) = Except.ok (false, d')) ∧
      (b = true → (d' x).length ≠ 0 → y ∈ cw.neighbors x →
        ac3Loop cw (fuel + 1) d (q ++ [(x, y)]) =
          ac3Loop cw fuel d'
            (q ++ ((cw.neighbors x).filter (fun z => z != y)).map (fun z => (z, x))))) ∧
    (∀ x y z : Nat,
      (z, x) ∈ ((cw.neighbors x).filter (fun z => z != y)).map (fun z => (z, x)) ↔
        z ∈ cw.neighbors x ∧ z ≠ y) ∧
    (∀ (d : Doms),
      ac3 cw fuel d none =
        ac3Loop cw fuel d (cw.vars.flatMap (fun x => (cw.neighbors x).map (fun y => (x, y))))) ∧
    (∀ x y : Nat,
      (x, y) ∈ cw.vars.flatMap (fun x => (cw.neighbors x).map (fun y => (x, y))) ↔
        x ∈ cw.vars ∧ y ∈ cw.neighbors x) := by
  refine ⟨?_, ?_, ?_, ?_, ?_⟩
  · intro d
    simp [ac3Loop]
  · intro d q x y b d' hrev
    have hstep : ac3Loop cw (fuel + 1) d (q ++ [(x, y)]) =
        (do
          let (revised, dn) ← revise cw d x y
          if revised then
            if (dn x).length = 0 then Except.ok (false, dn)
            else
              if (cw.neighbors x).contains y then
                ac3Loop cw fuel dn
                  (q ++ ((cw.neighbors x).filter (fun z => z != y)).map (fun z => (z, x)))
              else Except.error PyErr.keyError
          else ac3Loop cw fuel dn q) := by
      conv_lhs => rw [ac3Loop]
      rw [getLast?_append_single, dropLast_append_single]
    refine ⟨?_, ?_, ?_⟩
    · intro hb
      subst hb
      rw [hstep, hrev, ok_bind]
      simp
    · intro hb hlen
      subst hb
      rw [hstep, hrev, ok_bind]
      simp [hlen]
    · intro hb hlen hnb
      subst hb
      rw [hstep, hrev, ok_bind]
      have hc : (cw.neighbors x).contains y = true := List.elem_eq_true_of_mem hnb
      simp [hlen, hc]
      exact fun h => absurd hnb h
  · intro x y z
    simp [List.mem_filter]
  · intro d
    rfl
  · intro x y
    simp [List.mem_flatMap]

theorem suvFold_some (cw : Crossword) (d : Doms) :
    ∀ (l : List (Nat × Option Word)) (mn sv : Nat), mn = (d sv).length →
    ∃ mn' sv', l.foldl (suvStep cw d) (some (mn, sv)) = some (mn', sv') ∧
      mn' = (d sv').length ∧
      (sv' = sv ∨ (sv', none) ∈ l) ∧
      mn' ≤ mn ∧
      (∀ p ∈ l, p.2 = none → mn' ≤ (d p.1).length) ∧
      (∀ p ∈ l, p.2 = none → (d p.1).length = mn' →
        (cw.neighbors p.1).length ≤ (cw.neighbors sv').length) ∧
      (mn' = mn → (cw.neighbors sv).length ≤ (cw.neighbors sv').length) := by
  intro l
  induction l with
  | nil =>
    intro mn sv h
    exact ⟨mn, sv, rfl, h, Or.inl rfl, le_refl _, by simp, by simp, fun _ => le_refl _⟩
  | cons p t ih =>
    intro mn sv h
    cases hp : p.2 with
    | some w =>
      have hstep : suvStep cw d (some (mn, sv)) p = some (mn, sv) := by
        unfold suvStep
        rw [hp]
      rw [List.foldl_cons, hstep]
      obtain ⟨mn', sv', hfold, hm, hsv, hle, hmin, htie, hdeg⟩ := ih mn sv h
      refine ⟨mn', sv', hfold, hm, ?_, hle, ?_, ?_, hdeg⟩
      · rcases hsv with h' | h'
        · exact Or.inl h'
        · exact Or.inr (by simp [h'])
      · intro p' hp' hnone
        rcases List.mem_cons.mp hp' with h' | h'
        · rw [h'] at hnone; rw [hnone] at hp; cases hp
        · exact hmin p' h' hnone
      · intro p' hp' hnone hlen
        rcases List.mem_cons.mp hp' with h' | h'
        · rw [h'] at hnone; rw [hnone] at hp; cases hp
        · exact htie p' h' hnone hlen
    | none =>
      have hpeq : p = (p.1, none) := by
        cases p
        simp_all
      by_cases h1 : (d p.1).length < mn
      · have hstep : suvStep cw d (some (mn, sv)) p = some ((d p.1).length, p.1) := by
          unfold suvStep
          rw [hp]
          simp [h1]
        rw [List.foldl_cons, hstep]
        obtain ⟨mn', sv', hfold, hm, hsv, hle, hmin, htie, hdeg⟩ := ih (d p.1).length p.1 rfl
        refine ⟨mn', sv', hfold, hm, ?_, by omega, ?_, ?_, ?_⟩
        · rcases hsv with h' | h'
          · exact Or.inr (by rw [h']; rw [hpeq]; simp)
          · exact Or.inr (by simp [h'])
        · intro p' hp' hnone
          rcases List.mem_cons.mp hp' with h' | h'
          · rw [h']; omega
          · exact hmin p' h' hnone
        · intro p' hp' hnone hlen
          rcases List.mem_cons.mp hp' with h' | h'
          · rw [h'] at hlen ⊢; exact hdeg hlen.symm
          · exact htie p' h' hnone hlen
        · intro hmn
          omega
      · by_cases h2 : (d p.1).length = mn ∧ (cw.neighbors p.1).length > (cw.neighbors sv).length
        · have hstep : suvStep cw d (some (mn, sv)) p = some ((d p.1).length, p.1) := by
            unfold suvStep
            rw [hp]
            simp [h1, h2]
          rw [List.foldl_cons, hstep]
          obtain ⟨mn', sv', hfold, hm, hsv, hle, hmin, htie, hdeg⟩ := ih (d p.1).length p.1 rfl
          refine ⟨mn', sv', hfold, hm, ?_, by omega, ?_, ?_, ?_⟩
          · rcases hsv with h' | h'
            · exact Or.inr (by rw [h']; rw [hpeq]; simp)
            · exact Or.inr (by simp [h'])
          · intro p' hp' hnone
            rcases List.mem_cons.mp hp' with h' | h'
            · rw [h']; omega
            · exact hmin p' h' hnone
          · intro p' hp' hnone hlen
            rcases List.mem_cons.mp hp' with h' | h'
            · rw [h'] at hlen ⊢; exact hdeg hlen.symm
            · exact htie p' h' hnone hlen
          · intro hmn
            have hd : (cw.neighbors p.1).length ≤ (cw.neighbors sv').length := by
              apply hdeg
              omega
            omega
        · have hstep : suvStep cw d (some (mn, sv)) p = some (mn, sv) := by
            unfold suvStep
            rw [hp]
            simp only [if_neg h1, if_neg h2]
          rw [List.foldl_cons, hstep]
          obtain ⟨mn', sv', hfold, hm, hsv, hle, hmin, htie, hdeg⟩ := ih mn sv h
          refine ⟨mn', sv', hfold, hm, ?_, hle, ?_, ?_, hdeg⟩
          · rcases hsv with h' | h'
            · exact Or.inl h'
            · exact Or.inr (by simp [h'])
          · intro p' hp' hnone
            rcases List.mem_cons.mp hp' with h' | h'
            · rw [h']; omega
            · exact hmin p' h' hnone
          · intro p' hp' hnone hlen
            rcases List.mem_cons.mp hp' with h' | h'
            · subst h'
              have hlen2 : (d p'.1).length = mn := by omega
              have hdegle : ¬((cw.neighbors p'.1).length > (cw.neighbors sv).length) := by
                intro hgt
                exact h2 ⟨hlen2, hgt⟩
              have := hdeg (by omega)
              omega
            · exact htie p' h' hnone hlen

theorem suvFold_none (cw : Crossword) (d : Doms) :
    ∀ (l : List (Nat × Option Word)), (∃ p ∈ l, p.2 = none) →
    ∃ mn sv, l.foldl (suvStep cw d) none = some (mn, sv) ∧
      mn = (d sv).length ∧
      (sv, none) ∈ l ∧
      (∀ p ∈ l, p.2 = none → mn ≤ (d p.1).length) ∧
      (∀ p ∈ l, p.2 = none → (d p.1).length = mn →
        (cw.neighbors p.1).length ≤ (cw.neighbors sv).length) := by
  intro l
  induction l with
  | nil => intro h; simp at h
  | cons p t ih =>
    intro h
    cases hp : p.2 with
    | some w =>
      have hstep : suvStep cw d none p = none := by
        unfold suvStep
        rw [hp]
      rw [List.foldl_cons, hstep]
      have ht : ∃ p' ∈ t, p'.2 = none := by
        obtain ⟨p', hp', hnone⟩ := h
        rcases List.mem_cons.mp hp' with h' | h'
        · rw [h'] at hnone; rw [hnone] at hp; cases hp
        · exact ⟨p', h', hnone⟩
      obtain ⟨mn, sv, hfold, hm, hsv, hmin, htie⟩ := ih ht
      refine ⟨mn, sv, hfold, hm, by simp [hsv], ?_, ?_⟩
      · intro p' hp' hnone
        rcases List.mem_cons.mp hp' with h' | h'
        · rw [h'] at hnone; rw [hnone] at hp; cases hp
        · exact hmin p' h' hnone
      · intro p' hp' hnone hlen
        rcases List.mem_cons.mp hp' with h' | h'
        · rw [h'] at hnone; rw [hnone] at hp; cases hp
        · exact htie p' h' hnone hlen
    | none =>
      have hpeq : p = (p.1, none) := by
        cases p
        simp_all
      have hstep : suvStep cw d none p = some ((d p.1).length, p.1) := by
        unfold suvStep
        rw [hp]
      rw [List.foldl_cons, hstep]
      obtain ⟨mn', sv', hfold, hm, hsv, hle, hmin, htie, hdeg⟩ :=
        suvFold_some cw d t (d p.1).length p.1 rfl
      refine ⟨mn', sv', hfold, hm, ?_, ?_, ?_⟩
      · rcases hsv with h' | h'
        · rw [h']; rw [hpeq]; simp
        · simp [h']
      · intro p' hp' hnone
        rcases List.mem_cons.mp hp' with h' | h'
        · rw [h']; omega
        · exact hmin p' h' hnone
      · intro p' hp' hnone hlen
        rcases List.mem_cons.mp hp' with h' | h'
        · rw [h'] at hlen ⊢; exact hdeg hlen.symm
        · exact htie p' h' hnone hlen

/-- C9: with at least one unassigned entry, `select_unassigned_variable`
returns an unassigned variable of minimal current domain size, and of
maximal degree among those of minimal domain size. -/
theorem claim9_select_mrv_degree (cw : Crossword) (d : Doms) (a : Assignment)
    (h : ∃ p ∈ a, p.2 = none) :
    ∃ v, select_unassigned_variable cw d a = some v ∧ (v, none) ∈ a ∧
      (∀ p ∈ a, p.2 = none → (d v).length ≤ (d p.1).length) ∧
      (∀ p ∈ a, p.2 = none → (d p.1).length = (d v).length →
        (cw.neighbors p.1).length ≤ (cw.neighbors v).length) := by
  obtain ⟨mn, sv, hfold, hm, hsv, hmin, htie⟩ := suvFold_none cw d a h
  subst hm
  refine ⟨sv, ?_, hsv, hmin, htie⟩
  rw [select_unassigned_variable, hfold]
  rfl

/-- Concrete assignment for the C9 witness (variable 0 assigned, 1 and 2
unassigned with |dom 2| < |dom 1|). -/
def a9w : Assignment := [(0, some ['a','a']), (1, none), (2, none)]

def d9w : Doms := fun v => if v = 1 then [['a','a'], ['b','a']] else if v = 2 then [['a','b']] else []

theorem claim9_witness :
    (∃ p ∈ a9w, p.2 = none) ∧
    ∃ v, select_unassigned_variable cw6w d9w a9w = some v ∧ (v, none) ∈ a9w ∧
      (∀ p ∈ a9w, p.2 = none → (d9w v).length ≤ (d9w p.1).length) ∧
      (∀ p ∈ a9w, p.2 = none → (d9w p.1).length = (d9w v).length →
        (cw6w.neighbors p.1).length ≤ (cw6w.neighbors v).length) :=
  ⟨⟨(1, none), by decide, rfl⟩, claim9_select_mrv_degree cw6w d9w a9w ⟨(1, none), by decide, rfl⟩⟩

/-! ## Association-list (Python dict) lemmas -/

theorem lookupA_cons_self {q : Nat × Option Word} {t : Assignment} {v : Nat} (h : q.1 = v) :
    lookupA (q :: t) v = q.2 := by
  unfold lookupA
  rw [List.find?_cons_of_pos _ (by simp [h])]

theorem lookupA_cons_ne {q : Nat × Option Word} {t : Assignment} {v : Nat} (h : q.1 ≠ v) :
    lookupA (q :: t) v = lookupA t v := by
  unfold lookupA
  rw [List.find?_cons_of_neg _ (by simp [h])]

theorem aset_cons (q : Nat × Option Word) (t : Assignment) (u : Nat) (w : Option Word) :
    aset (q :: t) u w = (if q.1 == u then (q.1, w) else q) :: aset t u w := by
  simp [aset]

theorem aset_map_fst (a : Assignment) (u : Nat) (w : Option Word) :
    (aset a u w).map Prod.fst = a.map Prod.fst := by
  induction a with
  | nil => rfl
  | cons q t ih =>
    rw [aset_cons]
    by_cases h : q.1 = u <;> simp [h, ih]

theorem lookupA_aset_ne (a : Assignment) (u v : Nat) (w : Option Word) (h : u ≠ v) :
    lookupA (aset a u w) v = lookupA a v := by
  induction a with
  | nil => rfl
  | cons q t ih =>
    rw [aset_cons]
    by_cases hq : q.1 = u
    · rw [if_pos (by simp [hq])]
      rw [lookupA_cons_ne (by simp [hq, h]), lookupA_cons_ne (by rw [hq]; exact h), ih]
    · rw [if_neg (by simp [hq])]
      by_cases hv : q.1 = v
      · rw [lookupA_cons_self hv, lookupA_cons_self hv]
      · rw [lookupA_cons_ne hv, lookupA_cons_ne hv, ih]

theorem lookupA_aset_of_mem {a : Assignment} {v : Nat} (w : Option Word)
    (h : v ∈ a.map Prod.fst) : lookupA (aset a v w) v = w := by
  induction a with
  | nil => simp at h
  | cons q t ih =>
    rw [aset_cons]
    by_cases hq : q.1 = v
    · rw [if_pos (by simp [hq])]
      exact lookupA_cons_self hq
    · rw [if_neg (by simp [hq])]
      rw [lookupA_cons_ne hq]
      apply ih
      rcases List.mem_map.mp h with ⟨p, hp, hfst⟩
      rcases List.mem_cons.mp hp with h' | h'
      · exact absurd (h' ▸ hfst) hq
      · exact List.mem_map.mpr ⟨p, h', hfst⟩

theorem lookupA_of_mem_nodup {a : Assignment} {v : Nat} {x : Option Word}
    (hnd : (a.map Prod.fst).Nodup) (h : (v, x) ∈ a) : lookupA a v = x := by
  induction a with
  | nil => simp at h
  | cons q t ih =>
    rcases List.mem_cons.mp h with h' | h'
    · rw [← h']
      exact lookupA_cons_self rfl
    · have hq : q.1 ≠ v := by
        intro hqv
        have hv : v ∈ t.map Prod.fst := List.mem_map.mpr ⟨(v, x), h', rfl⟩
        rw [List.map_cons, List.nodup_cons] at hnd
        exact hnd.1 (hqv ▸ hv)
      rw [lookupA_cons_ne hq]
      exact ih (by rw [List.map_cons, List.nodup_cons] at hnd; exact hnd.2) h'

/-! ## The eager singleton `pop` (root seeding and forced inferences) -/

theorem seedStep_preserves (acc : Assignment × Doms) (p : Nat × Option Word) (v : Nat)
    (h : p.1 ≠ v) :
    lookupA (seedStep acc p).1 v = lookupA acc.1 v ∧ (seedStep acc p).2 v = acc.2 v := by
  unfold seedStep
  by_cases hc : (acc.2 p.1).length = 1
  · rw [if_pos hc]
    cases hd : acc.2 p.1 with
    | nil => simp
    | cons w rest =>
      constructor
      · exact lookupA_aset_ne _ _ _ _ h
      · exact updateD_ne _ _ _ (Ne.symm h)
  · rw [if_neg hc]
    exact ⟨rfl, rfl⟩

theorem inferStep_preserves (acc : Assignment × Doms) (p : Nat × Option Word) (v : Nat)
    (h : p.1 ≠ v) :
    lookupA (inferStep acc p).1 v = lookupA acc.1 v ∧ (inferStep acc p).2 v = acc.2 v := by
  unfold inferStep
  by_cases hc : (lookupA acc.1 p.1).isNone ∧ (acc.2 p.1).length = 1
  · rw [if_pos hc]
    cases hd : acc.2 p.1 with
    | nil => simp
    | cons w rest =>
      constructor
      · exact lookupA_aset_ne _ _ _ _ h
      · exact updateD_ne _ _ _ (Ne.symm h)
  · rw [if_neg hc]
    exact ⟨rfl, rfl⟩

theorem seedFold_preserves (v : Nat) :
    ∀ (l : List (Nat × Option Word)) (acc : Assignment × Doms), (∀ p ∈ l, p.1 ≠ v) →
    lookupA (l.foldl seedStep acc).1 v = lookupA acc.1 v ∧
      (l.foldl seedStep acc).2 v = acc.2 v := by
  intro l
  induction l with
  | nil => intro acc _; exact ⟨rfl, rfl⟩
  | cons p t ih =>
    intro acc hl
    rw [List.foldl_cons]
    have hp := seedStep_preserves acc p v (hl p (by simp))
    have ht := ih (seedStep acc p) (fun p' h' => hl p' (by simp [h']))
    exact ⟨ht.1.trans hp.1, ht.2.trans hp.2⟩

theorem inferFold_preserves (v : Nat) :
    ∀ (l : List (Nat × Option Word)) (acc : Assignment × Doms), (∀ p ∈ l, p.1 ≠ v) →
    lookupA (l.foldl inferStep acc).1 v = lookupA acc.1 v ∧
      (l.foldl inferStep acc).2 v = acc.2 v := by
  intro l
  induction l with
  | nil => intro acc _; exact ⟨rfl, rfl⟩
  | cons p t ih =>
    intro acc hl
    rw [List.foldl_cons]
    have hp := inferStep_preserves acc p v (hl p (by simp))
    have ht := ih (inferStep acc p) (fun p' h' => hl p' (by simp [h']))
    exact ⟨ht.1.trans hp.1, ht.2.trans hp.2⟩

theorem seedFold_pop (v : Nat) (w : Word) :
    ∀ (l : List (Nat × Option Word)) (acc : Assignment × Doms),
    (l.map Prod.fst).Nodup → v ∈ l.map Prod.fst →
    v ∈ acc.1.map Prod.fst → acc.2 v = [w] →
    lookupA (l.foldl seedStep acc).1 v = some w ∧ (l.foldl seedStep acc).2 v = [] := by
  intro l
  induction l with
  | nil => intro acc _ hv; simp at hv
  | cons p t ih =>
    intro acc hnd hv hkeys hdom
    rw [List.foldl_cons]
    by_cases hp : p.1 = v
    · have hstep : seedStep acc p = (aset acc.1 v (some w), updateD acc.2 v []) := by
        unfold seedStep
        rw [hp, hdom]
        simp
      rw [hstep]
      have htne : ∀ p' ∈ t, p'.1 ≠ v := by
        intro p' hp' hc
        rw [List.map_cons, List.nodup_cons] at hnd
        exact hnd.1 (hp ▸ hc ▸ List.mem_map.mpr ⟨p', hp', rfl⟩)
      have := seedFold_preserves v t (aset acc.1 v (some w), updateD acc.2 v []) htne
      refine ⟨this.1.trans ?_, this.2.trans ?_⟩
      · exact lookupA_aset_of_mem _ hkeys
      · exact updateD_self _ _ _
    · have hpre := seedStep_preserves acc p v hp
      have hv' : v ∈ t.map Prod.fst := by
        rcases List.mem_map.mp hv with ⟨p', hp', hfst⟩
        rcases List.mem_cons.mp hp' with h' | h'
        · exact absurd (h' ▸ hfst) hp
        · exact List.mem_map.mpr ⟨p', h', hfst⟩
      refine ih (seedStep acc p) ?_ hv' ?_ (hpre.2.trans hdom)
      · rw [List.map_cons, List.nodup_cons] at hnd
        exact hnd.2
      · -- keys of the assignment component are preserved by seedStep
        unfold seedStep
        by_cases hc : (acc.2 p.1).length = 1
        · rw [if_pos hc]
          cases hd : acc.2 p.1 with
          | nil => simpa using hkeys
          | cons w' rest => simpa [aset_map_fst] using hkeys
        · rw [if_neg hc]
          exact hkeys

theorem inferFold_pop (v : Nat) (w : Word) :
    ∀ (l : List (Nat × Option Word)) (acc : Assignment × Doms),
    (l.map Prod.fst).Nodup → v ∈ l.map Prod.fst →
    v ∈ acc.1.map Prod.fst → lookupA acc.1 v = none → acc.2 v = [w] →
    lookupA (l.foldl inferStep acc).1 v = some w ∧ (l.foldl inferStep acc).2 v = [] := by
  intro l
  induction l with
  | nil => intro acc _ hv; simp at hv
  | cons p t ih =>
    intro acc hnd hv hkeys hnone hdom
    rw [List.foldl_cons]
    by_cases hp : p.1 = v
    · have hstep : inferStep acc p = (aset acc.1 v (some w), updateD acc.2 v []) := by
        unfold inferStep
        rw [hp, hdom, hnone]
        simp
      rw [hstep]
      have htne : ∀ p' ∈ t, p'.1 ≠ v := by
        intro p' hp' hc
        rw [List.map_cons, List.nodup_cons] at hnd
        exact hnd.1 (hp ▸ hc ▸ List.mem_map.mpr ⟨p', hp', rfl⟩)
      have := inferFold_preserves v t (aset acc.1 v (some w), updateD acc.2 v []) htne
      refine ⟨this.1.trans ?_, this.2.trans ?_⟩
      · exact lookupA_aset_of_mem _ hkeys
      · exact updateD_self _ _ _
    · have hpre := inferStep_preserves acc p v hp
      have hv' : v ∈ t.map Prod.fst := by
        rcases List.mem_map.mp hv with ⟨p', hp', hfst⟩
        rcases List.mem_cons.mp hp' with h' | h'
        · exact absurd (h' ▸ hfst) hp
        · exact List.mem_map.mpr ⟨p', h', hfst⟩
      refine ih (inferStep acc p) ?_ hv' ?_ (hpre.1.trans hnone) (hpre.2.trans hdom)
      · rw [List.map_cons, List.nodup_cons] at hnd
        exact hnd.2
      · unfold inferStep
        by_cases hc : (lookupA acc.1 p.1).isNone ∧ (acc.2 p.1).length = 1
        · rw [if_pos hc]
          cases hd : acc.2 p.1 with
          | nil => simpa using hkeys
          | cons w' rest => simpa [aset_map_fst] using hkeys
        · rw [if_neg hc]
          exact hkeys

/-- C10: a variable assigned by forced inference — eagerly at the root, or
after propagation when its domain has exactly one word left — has that word
`pop`ped out of its domain in the same step, so afterwards its domain is
empty and no longer contains the assigned word. -/
theorem claim10_pop_empties_domain :
    (∀ (cw : Crossword) (d : Doms) (v : Nat) (w : Word),
      cw.vars.Nodup → v ∈ cw.vars → d v = [w] →
      lookupA (backtrackRootSeed cw d).1 v = some w ∧ (backtrackRootSeed cw d).2 v = []) ∧
    (∀ (a : Assignment) (d : Doms) (v : Nat) (w : Word),
      (a.map Prod.fst).Nodup → (v, none) ∈ a → d v = [w] →
      lookupA (applyInferences a d).1 v = some w ∧ (applyInferences a d).2 v = []) := by
  constructor
  · intro cw d v w hnd hv hdom
    have hkeys : (cw.vars.map (fun v => ((v, none) : Nat × Option Word))).map Prod.fst = cw.vars := by
      simp [List.map_map, Function.comp_def]
    unfold backtrackRootSeed
    apply seedFold_pop v w _ _ (by rw [hkeys]; exact hnd) (by rw [hkeys]; exact hv)
      (by rw [hkeys]; exact hv) hdom
  · intro a d v w hnd hv hdom
    have hvk : v ∈ a.map Prod.fst := List.mem_map.mpr ⟨(v, none), hv, rfl⟩
    unfold applyInferences
    exact inferFold_pop v w a (a, d) hnd hvk hvk (lookupA_of_mem_nodup hnd hv) hdom

theorem claim10_witness :
    (cw6w.vars.Nodup ∧ 0 ∈ cw6w.vars ∧ d9w 0 = [] ∧ True) ∧
    ((a9w.map Prod.fst).Nodup ∧ (2, none) ∈ a9w ∧ d9w 2 = [['a','b']] ∧
      lookupA (applyInferences a9w d9w).1 2 = some ['a','b'] ∧
      (applyInferences a9w d9w).2 2 = []) :=
  ⟨⟨by decide, by decide, by decide, trivial⟩,
    by decide, by decide, by decide,
    claim10_pop_empties_domain.2 a9w d9w 2 ['a','b'] (by decide) (by decide) (by decide)⟩

/-- Projection helpers for observing `btLoop` results. -/
def resFlag : Except PyErr (Bool × Assignment × Doms) → Option Bool
  | Except.ok (f, _, _) => some f
  | Except.error _ => none

def resDomAt (v : Nat) : Except PyErr (Bool × Assignment × Doms) → Option (List Word)
  | Except.ok (_, _, d) => some (d v)
  | Except.error _ => none

/-- C3 (amended): the candidate loop removes the tried value from the
variable's domain at the end of every iteration — after a failed consistency
check (without recursing) just as after a committed value whose recursive
call failed. -/
theorem claim3_amended :
    (∀ (cw : Crossword) (fuel : Nat)
      (recur : Doms → Assignment → Except PyErr (Bool × Assignment × Doms))
      (d : Doms) (a : Assignment) (var : Nat) (value : Word) (rest : List Word),
      consistent cw (aset a var (some value)) = Except.ok false →
      value ∈ d var →
      btLoop cw fuel recur d a var (value :: rest) =
        btLoop cw fuel recur (updateD d var ((d var).erase value)) a var rest) ∧
    (∀ (cw : Crossword) (fuel : Nat)
      (recur : Doms → Assignment → Except PyErr (Bool × Assignment × Doms))
      (d : Doms) (a : Assignment) (var : Nat) (value : Word) (rest : List Word)
      (inf : Bool) (d1 : Doms) (p : Assignment × Doms) (a3 : Assignment) (d3 : Doms),
      consistent cw (aset a var (some value)) = Except.ok true →
      ac3 cw fuel d (some ((cw.neighbors var).map (fun y => (y, var)))) = Except.ok (inf, d1) →
      (if inf then applyInferences (aset a var (some value)) d1
        else (aset a var (some value), d1)) = p →
      recur p.2 p.1 = Except.ok (false, a3, d3) →
      value ∈ d3 var →
      btLoop cw fuel recur d a var (value :: rest) =
        btLoop cw fuel recur (updateD d3 var ((d3 var).erase value)) a3 var rest) := by
  constructor
  · intro cw fuel recur d a var value rest hcons hmem
    conv_lhs => rw [btLoop]
    rw [hcons, ok_bind]
    have hc : (d var).contains value = true := List.elem_eq_true_of_mem hmem
    simp [hc]
    exact fun h => absurd hmem h
  · intro cw fuel recur d a var value rest inf d1 p a3 d3 hcons hac3 hp hrec hmem
    conv_lhs => rw [btLoop]
    rw [hcons, ok_bind]
    simp only [if_true]
    rw [hac3, ok_bind]
    dsimp only
    rw [hp, hrec, ok_bind]
    dsimp only
    have hc : (d3 var).contains value = true := List.elem_eq_true_of_mem hmem
    simp [hc]
    exact fun h => absurd hmem h

/-- Concrete state for the C3 counterexample: variable 0 is about to try
`"aa"`, inconsistent with its already-assigned neighbor 1 (`"bb"`). -/
def d3cex : Doms := fun v => if v = 0 then [['a','a']] else []

def a3cex : Assignment := [(0, none), (1, some ['b','b'])]

/-- C3 counterexample: the candidate `"aa"` fails the consistency check, is
discarded without recursing — and, contrary to the claim, IS removed from
variable 0's domain at that point (the domain ends up empty). -/
theorem claim3_counterexample :
    consistent cw6w (aset a3cex 0 (some ['a','a'])) = Except.ok false ∧
    ['a','a'] ∈ d3cex 0 ∧
    resFlag (btLoop cw6w 5 (backtrack cw6w 5) d3cex a3cex 0 [['a','a']]) = some false ∧
    resDomAt 0 (btLoop cw6w 5 (backtrack cw6w 5) d3cex a3cex 0 [['a','a']]) = some [] :=
  ⟨rfl, by decide, rfl, rfl⟩

theorem claim3_witness :
    consistent cw6w (aset a3cex 0 (some ['a','a'])) = Except.ok false ∧
    ['a','a'] ∈ d3cex 0 ∧
    btLoop cw6w 5 (backtrack cw6w 5) d3cex a3cex 0 [['a','a']] =
      btLoop cw6w 5 (backtrack cw6w 5) (updateD d3cex 0 ((d3cex 0).erase ['a','a'])) a3cex 0 [] :=
  ⟨rfl, by decide,
    claim3_amended.1 cw6w 5 (backtrack cw6w 5) d3cex a3cex 0 ['a','a'] [] rfl (by decide)⟩

/-! ## `consistent` enforces constraints only between neighbors -/

theorem consistentNb_true (cw : Crossword) (a : Assignment) (x : Nat) (xw : Word) :
    ∀ ys : List Nat, consistentNb cw a x xw ys = Except.ok true →
    ∀ y ∈ ys, ∀ yw, lookupA a y = some yw → xw ≠ yw := by
  intro ys
  induction ys with
  | nil => intro _ y hy; simp at hy
  | cons y' ys' ih =>
    intro h y hy yw hlk
    rw [consistentNb] at h
    cases hl : lookupA a y' with
    | none =>
      rw [hl] at h
      dsimp only at h
      rcases List.mem_cons.mp hy with h' | h'
      · subst h'
        rw [hl] at hlk
        cases hlk
      · exact ih h y h' yw hlk
    | some yw' =>
      rw [hl] at h
      dsimp only at h
      cases hov : cw.overlaps x y' with
      | none =>
        rw [hov] at h
        dsimp only at h
        cases h
      | some p =>
        rcases p with ⟨i', j'⟩
        rw [hov] at h
        dsimp only at h
        cases hs1 : strIdx xw i' with
        | error e =>
          rw [hs1, error_bind] at h
          cases h
        | ok cx =>
          cases hs2 : strIdx yw' j' with
          | error e =>
            rw [hs1, ok_bind, hs2, error_bind] at h
            cases h
          | ok cy =>
            rw [hs1, ok_bind, hs2, ok_bind] at h
            by_cases hcond : cx ≠ cy ∨ xw = yw'
            · rw [if_pos hcond] at h
              cases h
            · rw [if_neg hcond] at h
              push_neg at hcond
              rcases List.mem_cons.mp hy with h' | h'
              · subst h'
                rw [hl] at hlk
                injection hlk with hlk'
                subst hlk'
                exact hcond.2
              · exact ih h y h' yw hlk

theorem consistentGo_true (cw : Crossword) (a : Assignment) :
    ∀ l : List (Nat × Option Word), consistentGo cw a l = Except.ok true →
    ∀ x xw, (x, some xw) ∈ l → consistentNb cw a x xw (cw.neighbors x) = Except.ok true := by
  intro l
  induction l with
  | nil => intro _ x xw hx; simp at hx
  | cons q rest ih =>
    intro h x xw hx
    rcases q with ⟨x', v'⟩
    cases v' with
    | none =>
      rw [consistentGo] at h
      rcases List.mem_cons.mp hx with h' | h'
      · cases h'
      · exact ih h x xw h'
    | some xw' =>
      rw [consistentGo] at h
      cases hnb : consistentNb cw a x' xw' (cw.neighbors x') with
      | error e => rw [hnb] at h; cases h
      | ok b =>
        rw [hnb, ok_bind] at h
        cases b with
        | false => simp at h
        | true =>
          rw [if_pos rfl] at h
          rcases List.mem_cons.mp hx with h' | h'
          · injection h' with h1 h2
            injection h2 with h2
            subst h1; subst h2
            exact hnb
          · exact ih h x xw h'

/-- C2 (amended): the duplicate-word rule is enforced only between
neighboring variables — when `consistent` returns true, every assigned
variable differs from each of its assigned neighbors, but nothing relates
non-neighboring variables. -/
theorem claim2_amended (cw : Crossword) (a : Assignment)
    (h : consistent cw a = Except.ok true) :
    ∀ x xw, (x, some xw) ∈ a → ∀ y ∈ cw.neighbors x, ∀ yw, lookupA a y = some yw →
      xw ≠ yw := by
  intro x xw hx y hy yw hlk
  have hnb := consistentGo_true cw a a h x xw hx
  exact consistentNb_true cw a x xw (cw.neighbors x) hnb y hy yw hlk

/-- Puzzle for the C2 counterexample and related witnesses: a 1x5 strip
`..#..` — two separate across slots of length 2 (cells (0,0)-(0,1) and
(0,3)-(0,4)), which share no cell, with the one-word vocabulary {"ab"}. -/
def cw2 : Crossword :=
  { vars := [0, 1]
    varLength := fun _ => 2
    overlaps := fun _ _ => none
    words := [['a','b']] }

/-- C2 counterexample: on `cw2`, `solve` assigns the same word `"ab"` to both
(non-neighboring) variables, so the returned words are not pairwise
distinct. -/
theorem claim2_counterexample :
    solve cw2 100 = Except.ok (some [(0, some ['a','b']), (1, some ['a','b'])]) ∧
    cw2.wf ∧
    (0 : Nat) ≠ 1 ∧
    cw2.overlaps 0 1 = none ∧
    lookupA [(0, some ['a','b']), (1, some ['a','b'])] 0 = some ['a','b'] ∧
    lookupA [(0, some ['a','b']), (1, some ['a','b'])] 1 = some ['a','b'] :=
  ⟨rfl, by decide, by decide, rfl, rfl, rfl⟩

/-- Assignment for the C2 witness: both crossing variables of `cw6w`
assigned, words distinct as the consistency check demands. -/
def a2w : Assignment := [(0, some ['a','a']), (1, some ['a','b'])]

theorem claim2_witness :
    consistent cw6w a2w = Except.ok true ∧
    (0, some ['a','a']) ∈ a2w ∧ 1 ∈ cw6w.neighbors 0 ∧ lookupA a2w 1 = some ['a','b'] ∧
    (['a','a'] : Word) ≠ ['a','b'] :=
  ⟨rfl, by decide, by decide, rfl,
    claim2_amended cw6w a2w rfl 0 ['a','a'] (by decide) 1 (by decide) ['a','b'] rfl⟩

/-! ## The counterexample puzzle: a real 3x3 grid

White cells `(0,0) (0,1) (0,2) (1,0) (1,2) (2,1) (2,2)` give four slots:
variable 0 = down at (0,0) length 2, variable 1 = across at (0,0) length 3,
variable 2 = down at (0,2) length 3, variable 3 = across at (2,1) length 2.
Overlaps: 0-1 share (0,0) at offsets (0,0); 1-2 share (0,2) at (2,0);
2-3 share (2,2) at (2,1).  The chain 0-1-2-3 is the whole overlap graph. -/

def cexVarLength : Nat → Nat
  | 0 => 2
  | 1 => 3
  | 2 => 3
  | _ => 2

def cexOverlaps : Nat → Nat → Option (Nat × Nat)
  | 0, 1 => some (0, 0)
  | 1, 0 => some (0, 0)
  | 1, 2 => some (2, 0)
  | 2, 1 => some (0, 2)
  | 2, 3 => some (2, 1)
  | 3, 2 => some (1, 2)
  | _, _ => none

/-- The grid above with vocabulary {"aa","bb","aab","abb","baa"}. -/
def cw1 : Crossword :=
  { vars := [0, 1, 2, 3]
    varLength := cexVarLength
    overlaps := cexOverlaps
    words := [['a','a'], ['b','b'], ['a','a','b'], ['a','b','b'], ['b','a','a']] }

/-- The same grid with vocabulary {"aa","bb","aaa","aab","baa"}. -/
def cw4 : Crossword :=
  { vars := [0, 1, 2, 3]
    varLength := cexVarLength
    overlaps := cexOverlaps
    words := [['a','a'], ['b','b'], ['a','a','a'], ['a','a','b'], ['b','a','a']] }

/-- The assignment `solve` returns on `cw1`. -/
def A1 : Assignment :=
  [(0, some ['a','a']), (1, some ['a','a','b']), (2, some ['b','a','a']), (3, some ['b','b'])]

/-- C1 counterexample: on the well-formed puzzle `cw1`, `solve` returns an
assignment that fails its own `consistent` check (variable 2 ends in 'a'
while its neighbor 3 demands 'b' at the shared cell): the word "bb" is
force-`pop`ped into variable 3 without any consistency check. -/
theorem claim1_counterexample :
    cw1.wf ∧
    solve cw1 100 = Except.ok (some A1) ∧
    consistent cw1 A1 = Except.ok false :=
  ⟨by decide, rfl, rfl⟩

/-! ## Completeness of returned assignments -/

theorem inferFold_keys :
    ∀ (l : List (Nat × Option Word)) (acc : Assignment × Doms),
    (l.foldl inferStep acc).1.map Prod.fst = acc.1.map Prod.fst := by
  intro l
  induction l with
  | nil => intro acc; rfl
  | cons p t ih =>
    intro acc
    rw [List.foldl_cons, ih]
    unfold inferStep
    by_cases hc : (lookupA acc.1 p.1).isNone ∧ (acc.2 p.1).length = 1
    · rw [if_pos hc]
      cases hd : acc.2 p.1 with
      | nil => rfl
      | cons w rest => exact aset_map_fst _ _ _
    · rw [if_neg hc]

theorem applyInferences_keys (a : Assignment) (d : Doms) :
    (applyInferences a d).1.map Prod.fst = a.map Prod.fst :=
  inferFold_keys a (a, d)

theorem seedFold_keys :
    ∀ (l : List (Nat × Option Word)) (acc : Assignment × Doms),
    (l.foldl seedStep acc).1.map Prod.fst = acc.1.map Prod.fst := by
  intro l
  induction l with
  | nil => intro acc; rfl
  | cons p t ih =>
    intro acc
    rw [List.foldl_cons, ih]
    unfold seedStep
    by_cases hc : (acc.2 p.1).length = 1
    · rw [if_pos hc]
      cases hd : acc.2 p.1 with
      | nil => rfl
      | cons w rest => exact aset_map_fst _ _ _
    · rw [if_neg hc]

theorem backtrackRootSeed_keys (cw : Crossword) (d : Doms) :
    (backtrackRootSeed cw d).1.map Prod.fst = cw.vars := by
  unfold backtrackRootSeed
  rw [seedFold_keys]
  simp [List.map_map, Function.comp_def]

theorem btLoop_ok (cw : Crossword) (fuel : Nat)
    (recur : Doms → Assignment → Except PyErr (Bool × Assignment × Doms))
    (var : Nat)
    (hrec : ∀ d0 a0 f a1 d1, a0.map Prod.fst = cw.vars →
      recur d0 a0 = Except.ok (f, a1, d1) →
      (f = true → assignment_complete a1 = true) ∧ a1.map Prod.fst = cw.vars) :
    ∀ (vals : List Word) (d : Doms) (a : Assignment) (f : Bool) (a' : Assignment) (d' : Doms),
    a.map Prod.fst = cw.vars →
    btLoop cw fuel recur d a var vals = Except.ok (f, a', d') →
    (f = true → assignment_complete a' = true) ∧ a'.map Prod.fst = cw.vars := by
  intro vals
  induction vals with
  | nil =>
    intro d a f a' d' ha h
    rw [btLoop] at h
    injection h with h1
    injection h1 with hf h2
    injection h2 with ha' hd
    subst hf; subst ha'
    exact ⟨fun hc => (Bool.false_ne_true hc).elim, ha⟩
  | cons value rest ih =>
    intro d a f a' d' ha h
    rw [btLoop] at h
    cases hc : consistent cw (aset a var (some value)) with
    | error e => rw [hc, error_bind] at h; cases h
    | ok b =>
      rw [hc, ok_bind] at h
      cases b with
      | false =>
        rw [if_neg (by simp)] at h
        by_cases hm : (d var).contains value = true
        · rw [if_pos hm] at h
          exact ih _ _ _ _ _ ha h
        · rw [if_neg hm] at h
          cases h
      | true =>
        rw [if_pos rfl] at h
        dsimp only at h
        cases hac3 : ac3 cw fuel d (some ((cw.neighbors var).map (fun y => (y, var)))) with
        | error e => rw [hac3, error_bind] at h; cases h
        | ok r =>
          rcases r with ⟨inf, d1⟩
          rw [hac3, ok_bind] at h
          dsimp only at h
          cases hsplit : (if inf = true then applyInferences (aset a var (some value)) d1
            else (aset a var (some value), d1)) with
          | mk a2 d2 =>
            rw [hsplit] at h
            dsimp only at h
            have hkeys2 : a2.map Prod.fst = cw.vars := by
              have he : a2 = (if inf = true then applyInferences (aset a var (some value)) d1
                  else (aset a var (some value), d1)).1 := by rw [hsplit]
              rw [he]
              cases inf with
              | true => simp [applyInferences_keys, aset_map_fst, ha]
              | false => simp [aset_map_fst, ha]
            cases hrecr : recur d2 a2 with
            | error e => rw [hrecr, error_bind] at h; cases h
            | ok r2 =>
              rcases r2 with ⟨flag, a3, d3⟩
              rw [hrecr, ok_bind] at h
              have hr := hrec d2 a2 flag a3 d3 hkeys2 hrecr
              cases flag with
              | true =>
                rw [if_pos rfl] at h
                injection h with h1
                injection h1 with hf h2
                injection h2 with ha' hd
                subst hf; subst ha'
                exact ⟨fun _ => hr.1 rfl, hr.2⟩
              | false =>
                rw [if_neg (by simp)] at h
                by_cases hm : (d3 var).contains value = true
                · rw [if_pos hm] at h
                  exact ih _ _ _ _ _ hr.2 h
                · rw [if_neg hm] at h
                  cases h

theorem backtrack_ok (cw : Crossword) :
    ∀ (fuel : Nat) (d : Doms) (a : Assignment) (f : Bool) (a' : Assignment) (d' : Doms),
    (a = [] ∨ a.map Prod.fst = cw.vars) →
    backtrack cw fuel d a = Except.ok (f, a', d') →
    (f = true → assignment_complete a' = true) ∧ a'.map Prod.fst = cw.vars := by
  intro fuel
  induction fuel with
  | zero => intro d a f a' d' _ h; cases h
  | succ fuel ih =>
    intro d a f a' d' ha h
    rw [backtrack] at h
    cases hseed : (if a.isEmpty then backtrackRootSeed cw d else (a, d)) with
    | mk a0 d0 =>
      rw [hseed] at h
      dsimp only at h
      have hkeys0 : a0.map Prod.fst = cw.vars := by
        have he : a0 = (if a.isEmpty then backtrackRootSeed cw d else (a, d)).1 := by rw [hseed]
        rw [he]
        by_cases hemp : a.isEmpty
        · simp [hemp, backtrackRootSeed_keys]
        · rcases ha with ha | ha
          · rw [ha] at hemp; simp at hemp
          · simpa [hemp] using ha
      by_cases hcomp : assignment_complete a0 = true
      · rw [if_pos hcomp] at h
        injection h with h1
        injection h1 with hf h2
        injection h2 with ha' hd
        subst hf; subst ha'
        exact ⟨fun _ => hcomp, hkeys0⟩
      · rw [if_neg hcomp] at h
        cases hsel : select_unassigned_variable cw d0 a0 with
        | none => rw [hsel] at h; cases h
        | some var =>
          rw [hsel] at h
          dsimp only at h
          cases hodv : order_domain_values cw d0 var a0 with
          | error e => rw [hodv, error_bind] at h; cases h
          | ok vals =>
            rw [hodv, ok_bind] at h
            have hrec : ∀ d0' a0' f' a1 d1, a0'.map Prod.fst = cw.vars →
                backtrack cw fuel d0' a0' = Except.ok (f', a1, d1) →
                (f' = true → assignment_complete a1 = true) ∧ a1.map Prod.fst = cw.vars :=
              fun d0' a0' f' a1 d1 hk h' => ih d0' a0' f' a1 d1 (Or.inr hk) h'
            exact btLoop_ok cw fuel (backtrack cw fuel) var hrec vals d0 a0 f a' d' hkeys0 h

theorem lookupA_isSome_of_complete {a : Assignment} (hc : assignment_complete a = true) :
    ∀ v ∈ a.map Prod.fst, ∃ w, lookupA a v = some w := by
  induction a with
  | nil => intro v hv; simp at hv
  | cons q t ih =>
    intro v hv
    by_cases hq : q.1 = v
    · rw [lookupA_cons_self hq]
      have : q.2.isSome = true := by
        have := List.all_eq_true.mp hc q (by simp)
        simpa using this
      exact Option.isSome_iff_exists.mp this
    · rw [lookupA_cons_ne hq]
      have ht : assignment_complete t = true := by
        rw [assignment_complete, List.all_eq_true] at hc ⊢
        exact fun p hp => hc p (by simp [hp])
      apply ih ht
      rcases List.mem_map.mp hv with ⟨p, hp, hfst⟩
      rcases List.mem_cons.mp hp with h' | h'
      · exact absurd (h' ▸ hfst) hq
      · exact List.mem_map.mpr ⟨p, h', hfst⟩

/-- C1 (amended): an assignment returned by `solve` (rather than the
no-solution sentinel) is complete — its keys are exactly the puzzle's
variables and each is mapped to a word — but it need not pass the
`consistent` check (see the counterexample). -/
theorem claim1_amended (cw : Crossword) (fuel : Nat) (a : Assignment)
    (h : solve cw fuel = Except.ok (some a)) :
    assignment_complete a = true ∧ a.map Prod.fst = cw.vars ∧
    ∀ v ∈ cw.vars, ∃ w, lookupA a v = some w := by
  rw [solve] at h
  dsimp only at h
  cases hac3 : ac3 cw fuel (enforce_node_consistency cw fun _ => cw.words) none with
  | error e => rw [hac3, error_bind] at h; cases h
  | ok r =>
    rcases r with ⟨b, d2⟩
    rw [hac3, ok_bind] at h
    dsimp only at h
    cases hbt : backtrack cw fuel d2 [] with
    | error e => rw [hbt, error_bind] at h; cases h
    | ok r2 =>
      rcases r2 with ⟨flag, a', d''⟩
      rw [hbt, ok_bind] at h
      dsimp only at h
      cases flag with
      | false =>
        rw [if_neg (by simp)] at h
        exact absurd h (by intro hx; injection hx with hx1; cases hx1)
      | true =>
        rw [if_pos rfl] at h
        injection h with h1
        injection h1 with h2
        subst h2
        have hr := backtrack_ok cw fuel d2 [] true a' d'' (Or.inl rfl) hbt
        refine ⟨hr.1 rfl, hr.2, ?_⟩
        intro v hv
        exact lookupA_isSome_of_complete (hr.1 rfl) v (by rw [hr.2]; exact hv)

theorem claim1_witness :
    solve cw2 100 = Except.ok (some [(0, some ['a','b']), (1, some ['a','b'])]) ∧
    (assignment_complete [(0, some ['a','b']), (1, some ['a','b'])] = true ∧
      ([(0, some ['a','b']), (1, some ['a','b'])] : Assignment).map Prod.fst = cw2.vars ∧
      ∀ v ∈ cw2.vars, ∃ w, lookupA [(0, some ['a','b']), (1, some ['a','b'])] v = some w) :=
  ⟨rfl, claim1_amended cw2 100 [(0, some ['a','b']), (1, some ['a','b'])] rfl⟩

/-- C4: on the well-formed puzzle `cw4`, `solve` raises KeyError — the
unconditional `self.domains[var].remove(value)` at the end of the candidate
loop fires after arc-consistency propagation inside the subtree has already
pruned `value` ("bb") from the variable's domain — instead of returning an
assignment or the `None` sentinel. -/
theorem claim4_keyerror :
    cw4.wf ∧ solve cw4 100 = Except.error PyErr.keyError :=
  ⟨by decide, rfl⟩

/-! ## Arc-consistency soundness (C8) -/

/-- Arc `(x, y)` is supported: every word of x's domain has a partner in y's
domain matching at the overlap and different from it. -/
def Supp (cw : Crossword) (d : Doms) (x y : Nat) : Prop :=
  ∀ i j, cw.overlaps x y = some (i, j) → ∀ w ∈ d x, hasSupport i j (d y) w = true

/-- Every queued arc joins a variable to one of its neighbors. -/
def QOK (cw : Crossword) (q : List (Nat × Nat)) : Prop :=
  ∀ p ∈ q, p.1 ∈ cw.vars ∧ p.2 ∈ cw.neighbors p.1

theorem neighbors_symm {cw : Crossword} (hwf : cw.wf) {x y : Nat} (hx : x ∈ cw.vars)
    (hy : y ∈ cw.neighbors x) : x ∈ cw.neighbors y := by
  rcases (mem_neighbors cw x y).mp hy with ⟨hyv, hyx, hsome⟩
  rcases Option.isSome_iff_exists.mp hsome with ⟨⟨i, j⟩, hov⟩
  refine (mem_neighbors cw y x).mpr ⟨hx, Ne.symm hyx, ?_⟩
  rw [wf_overlap_symm hwf hx hyv hov]
  rfl

theorem revise_ok_of_wf {cw : Crossword} {d : Doms} {x y : Nat} (hwf : cw.wf)
    (hlen : LenOK cw d) (hx : x ∈ cw.vars) (hy : y ∈ cw.neighbors x) :
    ∃ ix iy, cw.overlaps x y = some (ix, iy) ∧
      revise cw d x y = Except.ok
        ((d x).any (fun w => !hasSupport ix iy (d y) w),
         updateD d x ((d x).filter (hasSupport ix iy (d y)))) := by
  rcases (mem_neighbors cw x y).mp hy with ⟨hyv, hyx, hsome⟩
  rcases Option.isSome_iff_exists.mp hsome with ⟨⟨ix, iy⟩, hov⟩
  have hbd := wf_overlap_lt hwf hx hyv hov
  refine ⟨ix, iy, hov, revise_ok hov ?_ ?_⟩
  · intro w hw
    rw [hlen x hx w hw]
    exact hbd.1
  · intro w hw
    rw [hlen y hyv w hw]
    exact hbd.2

theorem ac3Loop_sound (cw : Crossword) (hwf : cw.wf) :
    ∀ (fuel : Nat) (d : Doms) (q : List (Nat × Nat)) (d' : Doms),
    LenOK cw d → QOK cw q →
    (∀ x ∈ cw.vars, ∀ y ∈ cw.neighbors x, (x, y) ∉ q → Supp cw d x y) →
    ac3Loop cw fuel d q = Except.ok (true, d') →
    ∀ x ∈ cw.vars, ∀ y ∈ cw.neighbors x, Supp cw d' x y := by
  intro fuel
  induction fuel with
  | zero => intro d q d' _ _ _ h; cases h
  | succ fuel ih =>
    intro d q d' hlen hq hinv h
    rcases List.eq_nil_or_concat q with hq0 | ⟨q0, xy, hq0⟩
    · subst hq0
      have hnil : ac3Loop cw (fuel + 1) d [] = Except.ok (true, d) := rfl
      rw [hnil] at h
      injection h with h1
      injection h1 with _ hd
      subst hd
      intro x hx y hy
      exact hinv x hx y hy (by simp)
    · rcases xy with ⟨x0, y0⟩
      rw [List.concat_eq_append] at hq0
      subst hq0
      have hx0y0 := hq (x0, y0) (by simp)
      have hx0 : x0 ∈ cw.vars := hx0y0.1
      have hy0 : y0 ∈ cw.neighbors x0 := hx0y0.2
      have hy0x0 : y0 ≠ x0 := ((mem_neighbors cw x0 y0).mp hy0).2.1
      have hy0v : y0 ∈ cw.vars := ((mem_neighbors cw x0 y0).mp hy0).1
      obtain ⟨ix, iy, hov, hrev⟩ := revise_ok_of_wf hwf hlen hx0 hy0
      have hstep : ac3Loop cw (fuel + 1) d (q0 ++ [(x0, y0)]) =
          (do
            let (revised, dn) ← revise cw d x0 y0
            if revised then
              if (dn x0).length = 0 then Except.ok (false, dn)
              else
                if (cw.neighbors x0).contains y0 then
                  ac3Loop cw fuel dn
                    (q0 ++ ((cw.neighbors x0).filter (fun z => z != y0)).map (fun z => (z, x0)))
                else Except.error PyErr.keyError
            else ac3Loop cw fuel dn q0) := by
        conv_lhs => rw [ac3Loop]
        rw [getLast?_append_single, dropLast_append_single]
      rw [hstep, hrev, ok_bind] at h
      dsimp only at h
      set dn := updateD d x0 ((d x0).filter (hasSupport ix iy (d y0))) with hdn
      have hdn_x0 : dn x0 = (d x0).filter (hasSupport ix iy (d y0)) := updateD_self _ _ _
      have hdn_ne : ∀ v, v ≠ x0 → dn v = d v := fun v hv => updateD_ne _ _ _ hv
      have hdn_sub : ∀ v, ∀ w ∈ dn v, w ∈ d v := by
        intro v w hw
        by_cases hv : v = x0
        · subst hv
          rw [hdn_x0] at hw
          exact (List.mem_filter.mp hw).1
        · rw [hdn_ne v hv] at hw
          exact hw
      have hlen' : LenOK cw dn := fun v hv w hw => hlen v hv w (hdn_sub v w hw)
      have hq0ok : QOK cw q0 := fun p hp => hq p (by simp [hp])
      cases hb : (d x0).any (fun w => !hasSupport ix iy (d y0) w) with
      | false =>
        rw [hb] at h
        rw [if_neg (by simp)] at h
        have hfeq : (d x0).filter (hasSupport ix iy (d y0)) = d x0 :=
          filter_eq_self_of_any_not_false hb
        have hdn_eq : ∀ v, dn v = d v := by
          intro v
          by_cases hv : v = x0
          · subst hv; rw [hdn_x0, hfeq]
          · exact hdn_ne v hv
        have hsupp_x0y0 : Supp cw dn x0 y0 := by
          intro i j hov' w hw
          rw [hov] at hov'
          injection hov' with hov''
          injection hov'' with hi hj
          subst hi; subst hj
          have hall := List.any_eq_false.mp hb
          have := hall w (by rw [hdn_eq x0] at hw; exact hw)
          rw [hdn_eq y0]
          simpa using this
        refine ih dn q0 d' hlen' hq0ok ?_ h
        intro a ha b hbn hab
        by_cases hxy : (a, b) = (x0, y0)
        · injection hxy with h1 h2
          subst h1; subst h2
          exact hsupp_x0y0
        · have : (a, b) ∉ q0 ++ [(x0, y0)] := by
            intro hmem
            rcases List.mem_append.mp hmem with hm | hm
            · exact hab hm
            · simp at hm
              exact hxy (by rw [hm.1, hm.2])
          have hs := hinv a ha b hbn this
          intro i j hov' w hw
          rw [hdn_eq b]
          exact hs i j hov' w (by rw [hdn_eq a] at hw; exact hw)
      | true =>
        rw [hb] at h
        rw [if_pos rfl] at h
        by_cases hlen0 : (dn x0).length = 0
        · rw [if_pos hlen0] at h
          injection h with h1
          injection h1 with hf
          cases hf
        · rw [if_neg hlen0] at h
          rw [if_pos (List.elem_eq_true_of_mem hy0)] at h
          set newArcs := ((cw.neighbors x0).filter (fun z => z != y0)).map (fun z => (z, x0))
            with hnew
          have hq'' : QOK cw (q0 ++ newArcs) := by
            intro p hp
            rcases List.mem_append.mp hp with hm | hm
            · exact hq0ok p hm
            · rcases List.mem_map.mp hm with ⟨z, hz, hzp⟩
              have hzn : z ∈ cw.neighbors x0 := (List.mem_filter.mp hz).1
              subst hzp
              refine ⟨((mem_neighbors cw x0 z).mp hzn).1, ?_⟩
              exact neighbors_symm hwf hx0 hzn
          refine ih dn (q0 ++ newArcs) d' hlen' hq'' ?_ h
          intro a ha b hbn hab
          have hnotq0 : (a, b) ∉ q0 := fun hm => hab (List.mem_append.mpr (Or.inl hm))
          by_cases hax : a = x0
          · subst hax
            by_cases hby : b = y0
            · subst hby
              intro i j hov' w hw
              rw [hov] at hov'
              injection hov' with hov''
              injection hov'' with hi hj
              subst hi; subst hj
              rw [hdn_x0] at hw
              rw [hdn_ne b hy0x0]
              exact (List.mem_filter.mp hw).2
            · have hold : Supp cw d a b := by
                apply hinv a ha b hbn
                intro hm
                rcases List.mem_append.mp hm with hm' | hm'
                · exact hnotq0 hm'
                · rw [List.mem_singleton] at hm'
                  injection hm' with h1 h2
                  exact hby h2
              have hbx : b ≠ a := ((mem_neighbors cw a b).mp hbn).2.1
              intro i j hov' w hw
              rw [hdn_ne b hbx]
              exact hold i j hov' w (hdn_sub a w hw)
          · by_cases hbx : b = x0
            · subst hbx
              by_cases hay : a = y0
              · subst hay
                intro i j hov' w' hw'
                have hsymm := wf_overlap_symm hwf hx0 hy0v hov
                rw [hsymm] at hov'
                injection hov' with hov''
                injection hov'' with hi hj
                subst hi; subst hj
                rw [hdn_ne a hy0x0] at hw'
                have hold : Supp cw d a b := by
                  apply hinv a ha b hbn
                  intro hm
                  rcases List.mem_append.mp hm with hm' | hm'
                  · exact hnotq0 hm'
                  · rw [List.mem_singleton] at hm'
                    injection hm' with h1 h2
                    exact hy0x0 h1
                have hs := hold iy ix hsymm w' hw'
                rcases hasSupport_iff.mp hs with ⟨u, hu, hmatch, hne⟩
                have hukeep : hasSupport ix iy (d a) u = true :=
                  hasSupport_iff.mpr ⟨w', hw', hmatch.symm, Ne.symm hne⟩
                refine hasSupport_iff.mpr ⟨u, ?_, hmatch, hne⟩
                rw [hdn_x0]
                exact List.mem_filter.mpr ⟨hu, hukeep⟩
              · exfalso
                apply hab
                refine List.mem_append.mpr (Or.inr ?_)
                refine List.mem_map.mpr ⟨a, ?_, rfl⟩
                refine List.mem_filter.mpr ⟨neighbors_symm hwf ha hbn, ?_⟩
                simpa using hay
            · have hold : Supp cw d a b := by
                apply hinv a ha b hbn
                intro hm
                rcases List.mem_append.mp hm with hm' | hm'
                · exact hnotq0 hm'
                · rw [List.mem_singleton] at hm'
                  injection hm' with h1 h2
                  exact hax h1
              intro i j hov' w hw
              rw [hdn_ne b hbx]
              rw [hdn_ne a hax] at hw
              exact hold i j hov' w hw

/-- C8: arc-consistency soundness of the full run.  When `ac3` (with no
initial arcs, as called from `solve`) returns true, every word remaining in
x's domain has, for every neighbor y, a partner in y's domain that matches
at the overlap offsets and is not identical to it. -/
theorem claim8_ac3_soundness (cw : Crossword) (hwf : cw.wf) (d : Doms) (hlen : LenOK cw d)
    (fuel : Nat) (d' : Doms) (h : ac3 cw fuel d none = Except.ok (true, d')) :
    ∀ x ∈ cw.vars, ∀ y ∈ cw.neighbors x, ∀ i j, cw.overlaps x y = some (i, j) →
      ∀ w ∈ d' x, ∃ w' ∈ d' y, w.get? i = w'.get? j ∧ w ≠ w' := by
  have hloop : ac3Loop cw fuel d
      (cw.vars.flatMap (fun x => (cw.neighbors x).map (fun y => (x, y)))) =
      Except.ok (true, d') := h
  have hqok : QOK cw (cw.vars.flatMap (fun x => (cw.neighbors x).map (fun y => (x, y)))) := by
    intro p hp
    rcases List.mem_flatMap.mp hp with ⟨x, hx, hm⟩
    rcases List.mem_map.mp hm with ⟨y, hy, hpe⟩
    subst hpe
    exact ⟨hx, hy⟩
  have hinv : ∀ x ∈ cw.vars, ∀ y ∈ cw.neighbors x,
      (x, y) ∉ cw.vars.flatMap (fun x => (cw.neighbors x).map (fun y => (x, y))) →
      Supp cw d x y := by
    intro x hx y hy hmem
    exact absurd (List.mem_flatMap.mpr ⟨x, hx, List.mem_map.mpr ⟨y, hy, rfl⟩⟩) hmem
  have hs := ac3Loop_sound cw hwf fuel d _ d' hlen hqok hinv hloop
  intro x hx y hy i j hov w hw
  have := hs x hx y hy i j hov w hw
  exact hasSupport_iff.mp this

/-- Node-consistent start domains on `cw6w` for the C8 witness. -/
def d8w : Doms := fun _ => cw6w.words

theorem claim8_witness :
    cw6w.wf ∧ LenOK cw6w d8w ∧
    ∃ d' : Doms, ac3 cw6w 50 d8w none = Except.ok (true, d') ∧
      ∀ x ∈ cw6w.vars, ∀ y ∈ cw6w.neighbors x, ∀ i j, cw6w.overlaps x y = some (i, j) →
        ∀ w ∈ d' x, ∃ w' ∈ d' y, w.get? i = w'.get? j ∧ w ≠ w' :=
  ⟨by decide, by decide,
    ⟨_, rfl, claim8_ac3_soundness cw6w (by decide) d8w (by decide) 50 _ rfl⟩⟩

/-! ## Termination of the ac3 propagation loop (C5 infrastructure) -/

def totalSize (cw : Crossword) (d : Doms) : Nat :=
  (cw.vars.map (fun v => (d v).length)).sum

def acMeasure (cw : Crossword) (d : Doms) (q : List (Nat × Nat)) : Nat :=
  (cw.vars.length + 1) * totalSize cw d + q.length

theorem map_sum_lt (f g : Nat → Nat) :
    ∀ (l : List Nat), (∀ i ∈ l, f i ≤ g i) → ∀ x ∈ l, f x < g x →
    (l.map f).sum < (l.map g).sum := by
  intro l
  induction l with
  | nil => intro _ x hx; simp at hx
  | cons a t ih =>
    intro hle x hx hlt
    rw [List.map_cons, List.map_cons, List.sum_cons, List.sum_cons]
    rcases List.mem_cons.mp hx with h' | h'
    · subst h'
      have hts : (t.map f).sum ≤ (t.map g).sum :=
        List.sum_le_sum (fun i hi => hle i (by simp [hi]))
      omega
    · have hat : f a ≤ g a := hle a (by simp)
      have := ih (fun i hi => hle i (by simp [hi])) x h' hlt
      omega

theorem totalSize_congr (cw : Crossword) {d1 d2 : Doms} (h : ∀ v, d1 v = d2 v) :
    totalSize cw d1 = totalSize cw d2 := by
  unfold totalSize
  congr 1
  exact List.map_congr_left (fun v _ => by rw [h v])

theorem length_neighbors_le (cw : Crossword) (x : Nat) :
    (cw.neighbors x).length ≤ cw.vars.length :=
  List.length_filter_le _ _

theorem ac3Loop_total (cw : Crossword) (hwf : cw.wf) :
    ∀ (fuel : Nat) (d : Doms) (q : List (Nat × Nat)),
    LenOK cw d → QOK cw q → acMeasure cw d q < fuel →
    ∃ b d', ac3Loop cw fuel d q = Except.ok (b, d') ∧ ∀ v, ∀ w ∈ d' v, w ∈ d v := by
  intro fuel
  induction fuel with
  | zero => intro d q _ _ hm; omega
  | succ fuel ih =>
    intro d q hlen hq hm
    rcases List.eq_nil_or_concat q with hq0 | ⟨q0, xy, hq0⟩
    · subst hq0
      exact ⟨true, d, rfl, fun v w hw => hw⟩
    · rcases xy with ⟨x0, y0⟩
      rw [List.concat_eq_append] at hq0
      subst hq0
      have hx0y0 := hq (x0, y0) (by simp)
      have hx0 : x0 ∈ cw.vars := hx0y0.1
      have hy0 : y0 ∈ cw.neighbors x0 := hx0y0.2
      obtain ⟨ix, iy, hov, hrev⟩ := revise_ok_of_wf hwf hlen hx0 hy0
      have hstep : ac3Loop cw (fuel + 1) d (q0 ++ [(x0, y0)]) =
          (do
            let (revised, dn) ← revise cw d x0 y0
            if revised then
              if (dn x0).length = 0 then Except.ok (false, dn)
              else
                if (cw.neighbors x0).contains y0 then
                  ac3Loop cw fuel dn
                    (q0 ++ ((cw.neighbors x0).filter (fun z => z != y0)).map (fun z => (z, x0)))
                else Except.error PyErr.keyError
            else ac3Loop cw fuel dn q0) := by
        conv_lhs => rw [ac3Loop]
        rw [getLast?_append_single, dropLast_append_single]
      rw [hstep, hrev, ok_bind]
      dsimp only
      set dn := updateD d x0 ((d x0).filter (hasSupport ix iy (d y0))) with hdn
      have hdn_x0 : dn x0 = (d x0).filter (hasSupport ix iy (d y0)) := updateD_self _ _ _
      have hdn_ne : ∀ v, v ≠ x0 → dn v = d v := fun v hv => updateD_ne _ _ _ hv
      have hdn_sub : ∀ v, ∀ w ∈ dn v, w ∈ d v := by
        intro v w hw
        by_cases hv : v = x0
        · subst hv
          rw [hdn_x0] at hw
          exact (List.mem_filter.mp hw).1
        · rw [hdn_ne v hv] at hw
          exact hw
      have hlen' : LenOK cw dn := fun v hv w hw => hlen v hv w (hdn_sub v w hw)
      have hq0ok : QOK cw q0 := fun p hp => hq p (by simp [hp])
      have hqlen : q0.length + 1 = (q0 ++ [(x0, y0)]).length := by simp
      cases hb : (d x0).any (fun w => !hasSupport ix iy (d y0) w) with
      | false =>
        rw [if_neg (by simp)]
        have hfeq : (d x0).filter (hasSupport ix iy (d y0)) = d x0 :=
          filter_eq_self_of_any_not_false hb
        have hdn_eq : ∀ v, dn v = d v := by
          intro v
          by_cases hv : v = x0
          · subst hv; rw [hdn_x0, hfeq]
          · exact hdn_ne v hv
        have hmeas : acMeasure cw dn q0 < fuel := by
          have hts : totalSize cw dn = totalSize cw d := totalSize_congr cw hdn_eq
          unfold acMeasure at hm ⊢
          rw [hts]
          omega
        obtain ⟨b, d', heq, hsub⟩ := ih dn q0 hlen' hq0ok hmeas
        exact ⟨b, d', heq, fun v w hw => hdn_sub v w (hsub v w hw)⟩
      | true =>
        rw [if_pos rfl]
        by_cases hlen0 : (dn x0).length = 0
        · rw [if_pos hlen0]
          exact ⟨false, dn, rfl, hdn_sub⟩
        · rw [if_neg hlen0]
          rw [if_pos (List.elem_eq_true_of_mem hy0)]
          set newArcs := ((cw.neighbors x0).filter (fun z => z != y0)).map (fun z => (z, x0))
            with hnew
          have hq'' : QOK cw (q0 ++ newArcs) := by
            intro p hp
            rcases List.mem_append.mp hp with hmem | hmem
            · exact hq0ok p hmem
            · rcases List.mem_map.mp hmem with ⟨z, hz, hzp⟩
              have hzn : z ∈ cw.neighbors x0 := (List.mem_filter.mp hz).1
              subst hzp
              exact ⟨((mem_neighbors cw x0 z).mp hzn).1, neighbors_symm hwf hx0 hzn⟩
          have hx0lt : (dn x0).length < (d x0).length := by
            rw [hdn_x0]
            obtain ⟨w, hw, hns⟩ := List.any_eq_true.mp hb
            exact List.length_filter_lt_length_iff_exists.mpr ⟨w, hw, by simpa using hns⟩
          have hsize : totalSize cw dn + 1 ≤ totalSize cw d := by
            have := map_sum_lt (fun v => (dn v).length) (fun v => (d v).length) cw.vars
              (fun v _ => by
                show (dn v).length ≤ (d v).length
                by_cases hv : v = x0
                · subst hv; omega
                · rw [hdn_ne v hv])
              x0 hx0 hx0lt
            unfold totalSize
            omega
          have hnewlen : newArcs.length ≤ cw.vars.length := by
            rw [hnew, List.length_map]
            calc ((cw.neighbors x0).filter (fun z => z != y0)).length
                ≤ (cw.neighbors x0).length := List.length_filter_le _ _
              _ ≤ cw.vars.length := length_neighbors_le cw x0
          have hmeas : acMeasure cw dn (q0 ++ newArcs) < fuel := by
            unfold acMeasure at hm ⊢
            set B := cw.vars.length + 1 with hB
            set S := totalSize cw d with hS
            set S' := totalSize cw dn with hS'
            have hkey : B * S' + B ≤ B * S := by
              calc B * S' + B = B * (S' + 1) := by ring
                _ ≤ B * S := Nat.mul_le_mul_left B hsize
            have hqq : (q0 ++ newArcs).length + 1 ≤ (q0 ++ [(x0, y0)]).length + B := by
              rw [List.length_append, List.length_append]
              simp only [List.length_singleton]
              omega
            have hmm : B * S + (q0 ++ [(x0, y0)]).length < fuel + 1 := hm
            have hgoal : B * S' + (q0 ++ newArcs).length < fuel := by
              have h1 : B * S' + (q0 ++ newArcs).length + 1 ≤
                  B * S' + B + (q0 ++ [(x0, y0)]).length := by omega
              have h2 : B * S' + B + (q0 ++ [(x0, y0)]).length ≤
                  B * S + (q0 ++ [(x0, y0)]).length := by omega
              omega
            exact hgoal
          obtain ⟨b, d', heq, hsub⟩ := ih dn (q0 ++ newArcs) hlen' hq'' hmeas
          exact ⟨b, d', heq, fun v w hw => hdn_sub v w (hsub v w hw)⟩

/-! ## Node consistency facts -/

theorem nodeFold_preserve (cw : Crossword) (v : Nat) :
    ∀ (l : List Nat) (d : Doms), (∀ u ∈ l, u ≠ v) → (l.foldl (nodeStep cw) d) v = d v := by
  intro l
  induction l with
  | nil => intro d _; rfl
  | cons u t ih =>
    intro d hl
    rw [List.foldl_cons]
    rw [ih (nodeStep cw d u) (fun u' h' => hl u' (by simp [h']))]
    exact updateD_ne _ _ _ (Ne.symm (hl u (by simp)))

theorem nodeFold_at (cw : Crossword) (v : Nat) :
    ∀ (l : List Nat) (d : Doms), l.Nodup → v ∈ l →
    (l.foldl (nodeStep cw) d) v = (d v).filter (fun w => w.length == cw.varLength v) := by
  intro l
  induction l with
  | nil => intro d _ hv; simp at hv
  | cons u t ih =>
    intro d hnd hv
    rw [List.foldl_cons]
    rcases List.mem_cons.mp hv with h' | h'
    · subst h'
      have htne : ∀ u' ∈ t, u' ≠ v := by
        intro u' hu' hc
        rw [List.nodup_cons] at hnd
        exact hnd.1 (hc ▸ hu')
      rw [nodeFold_preserve cw v t _ htne]
      exact updateD_self _ _ _
    · have huv : u ≠ v := by
        intro hc
        rw [List.nodup_cons] at hnd
        exact hnd.1 (hc ▸ h')
      rw [ih (nodeStep cw d u) (by rw [List.nodup_cons] at hnd; exact hnd.2) h']
      congr 1
      exact updateD_ne _ _ _ (Ne.symm huv)

theorem enforce_node_at (cw : Crossword) (d : Doms) (hnd : cw.vars.Nodup) {v : Nat}
    (hv : v ∈ cw.vars) :
    enforce_node_consistency cw d v = (d v).filter (fun w => w.length == cw.varLength v) :=
  nodeFold_at cw v cw.vars d hnd hv

theorem enforce_node_LenOK (cw : Crossword) (d : Doms) (hnd : cw.vars.Nodup) :
    LenOK cw (enforce_node_consistency cw d) := by
  intro v hv w hw
  rw [enforce_node_at cw d hnd hv] at hw
  have := (List.mem_filter.mp hw).2
  simpa using this

/-! ## An empty domain survives the root seeding untouched -/

theorem seedFold_empty (v : Nat) :
    ∀ (l : List (Nat × Option Word)) (acc : Assignment × Doms), acc.2 v = [] →
    lookupA (l.foldl seedStep acc).1 v = lookupA acc.1 v ∧ (l.foldl seedStep acc).2 v = [] := by
  intro l
  induction l with
  | nil => intro acc h; exact ⟨rfl, h⟩
  | cons p t ih =>
    intro acc hacc
    rw [List.foldl_cons]
    by_cases hp : p.1 = v
    · have hstep : seedStep acc p = acc := by
        unfold seedStep
        rw [hp, hacc]
        simp
      rw [hstep]
      exact ih acc hacc
    · have hpre := seedStep_preserves acc p v hp
      have := ih (seedStep acc p) (hpre.2.trans hacc)
      exact ⟨this.1.trans hpre.1, this.2⟩

theorem lookupA_all_none : ∀ (l : List Nat) (v : Nat),
    lookupA (l.map (fun u => ((u, none) : Nat × Option Word))) v = none := by
  intro l
  induction l with
  | nil => intro v; rfl
  | cons u t ih =>
    intro v
    rw [List.map_cons]
    by_cases hu : u = v
    · exact lookupA_cons_self hu
    · rw [lookupA_cons_ne hu]
      exact ih v

theorem rootSeed_empty (cw : Crossword) (d : Doms) (v : Nat) (hd : d v = []) :
    lookupA (backtrackRootSeed cw d).1 v = none ∧ (backtrackRootSeed cw d).2 v = [] := by
  unfold backtrackRootSeed
  have := seedFold_empty v (cw.vars.map (fun v => (v, none))) (cw.vars.map (fun v => (v, none)), d) hd
  exact ⟨this.1.trans (lookupA_all_none cw.vars v), this.2⟩

theorem exists_entry_of_lookupA {a : Assignment} {v : Nat} (hv : v ∈ a.map Prod.fst) :
    (v, lookupA a v) ∈ a := by
  induction a with
  | nil => simp at hv
  | cons q t ih =>
    by_cases hq : q.1 = v
    · rw [lookupA_cons_self hq]
      exact List.mem_cons.mpr (Or.inl (by rw [← hq]))
    · rw [lookupA_cons_ne hq]
      refine List.mem_cons.mpr (Or.inr (ih ?_))
      rcases List.mem_map.mp hv with ⟨p, hp, hfst⟩
      rcases List.mem_cons.mp hp with h' | h'
      · exact absurd (h' ▸ hfst) hq
      · exact List.mem_map.mpr ⟨p, h', hfst⟩

theorem complete_false_of_none {a : Assignment} {v : Nat} (h : (v, none) ∈ a) :
    assignment_complete a = false := by
  cases hc : assignment_complete a with
  | false => rfl
  | true =>
    have := List.all_eq_true.mp hc (v, none) h
    simp at this

/-! ## C5: an empty post-node-consistency domain forces the sentinel -/

/-- The domain store at the start of `solve`'s search: every domain seeded
with the vocabulary (`__init__`), then node consistency. -/
def solveStartDoms (cw : Crossword) : Doms :=
  enforce_node_consistency cw (fun _ => cw.words)

/-- The initial all-arcs work queue of `ac3(None)`. -/
def initQueue (cw : Crossword) : List (Nat × Nat) :=
  cw.vars.flatMap (fun x => (cw.neighbors x).map (fun y => (x, y)))

/-- Enough fuel for `solve`'s global propagation to run to completion. -/
def c5Fuel (cw : Crossword) : Nat :=
  acMeasure cw (solveStartDoms cw) (initQueue cw) + 1

theorem initQueue_QOK (cw : Crossword) : QOK cw (initQueue cw) := by
  intro p hp
  rcases List.mem_flatMap.mp hp with ⟨x, hx, hm⟩
  rcases List.mem_map.mp hm with ⟨y, hy, hpe⟩
  subst hpe
  exact ⟨hx, hy⟩

/-- C5: if some variable's domain is empty after node consistency, `solve`
returns the no-solution sentinel `None` (with no exception), whether or not
that variable has neighbors, even though `solve` ignores `ac3`'s boolean. -/
theorem claim5_empty_domain_no_solution (cw : Crossword) (hwf : cw.wf) (v : Nat)
    (hv : v ∈ cw.vars) (hempty : solveStartDoms cw v = [])
    (fuel : Nat) (hfuel : c5Fuel cw ≤ fuel) :
    solve cw fuel = Except.ok none := by
  have hlen1 : LenOK cw (solveStartDoms cw) := enforce_node_LenOK cw _ hwf.1
  have hmeas : acMeasure cw (solveStartDoms cw) (initQueue cw) < fuel := by
    unfold c5Fuel at hfuel
    omega
  obtain ⟨b, d2, hac3, hsub⟩ :=
    ac3Loop_total cw hwf fuel (solveStartDoms cw) (initQueue cw) hlen1 (initQueue_QOK cw) hmeas
  have hac3' : ac3 cw fuel (solveStartDoms cw) none = Except.ok (b, d2) := hac3
  have hd2v : d2 v = [] := by
    rw [List.eq_nil_iff_forall_not_mem]
    intro w hw
    have := hsub v w hw
    rw [hempty] at this
    simp at this
  rcases Nat.exists_eq_add_of_le hfuel with ⟨k, hk⟩
  have hfuelpos : ∃ n, fuel = n + 1 := by
    refine ⟨fuel - 1, ?_⟩
    unfold c5Fuel at hk
    omega
  rcases hfuelpos with ⟨n, hn⟩
  rw [solve]
  dsimp only
  rw [show enforce_node_consistency cw (fun _ => cw.words) = solveStartDoms cw from rfl]
  rw [hac3', ok_bind]
  dsimp only
  rw [hn, backtrack]
  dsimp only
  cases hseed : backtrackRootSeed cw d2 with
  | mk a0 d0 =>
    have hroot := rootSeed_empty cw d2 v hd2v
    rw [hseed] at hroot
    dsimp only at hroot
    have hkeys : a0.map Prod.fst = cw.vars := by
      have hks := backtrackRootSeed_keys cw d2
      rw [hseed] at hks
      exact hks
    have hv0 : (v, none) ∈ a0 := by
      have hmem : v ∈ a0.map Prod.fst := by rw [hkeys]; exact hv
      have hx := exists_entry_of_lookupA hmem
      rw [hroot.1] at hx
      exact hx
    have hcomp : assignment_complete a0 = false := complete_false_of_none hv0
    obtain ⟨mn, sv, hfold, hm, hsv, hmin, htie⟩ :=
      suvFold_none cw d0 a0 ⟨(v, none), hv0, rfl⟩
    have hselect : select_unassigned_variable cw d0 a0 = some sv := by
      rw [select_unassigned_variable, hfold]
      rfl
    have hmn0 : mn = 0 := by
      have hx := hmin (v, none) hv0 rfl
      dsimp only at hx
      rw [hroot.2] at hx
      simpa using hx
    have hd0sv : d0 sv = [] := by
      have hx := hm
      rw [hmn0] at hx
      exact List.length_eq_zero.mp hx.symm
    have hodv : order_domain_values cw d0 sv a0 = Except.ok [] := by
      unfold order_domain_values
      rw [hd0sv]
      rfl
    simp only [List.isEmpty_nil, eq_self_iff_true, if_true]
    rw [hcomp]
    rw [if_neg (by simp)]
    rw [hselect]
    dsimp only
    rw [hodv, ok_bind]
    rw [show btLoop cw n (backtrack cw n) d0 a0 sv [] = Except.ok (false, a0, d0) from rfl]
    rw [ok_bind]
    rfl

/-- C5 witness puzzle: a single across slot of length 2 with the vocabulary
{"abc"} — node consistency (length filtering) empties its domain. -/
def cw5w : Crossword :=
  { vars := [0]
    varLength := fun _ => 2
    overlaps := fun _ _ => none
    words := [['a','b','c']] }

theorem claim5_witness :
    cw5w.wf ∧ 0 ∈ cw5w.vars ∧ solveStartDoms cw5w 0 = [] ∧ c5Fuel cw5w ≤ 100 ∧
    solve cw5w 100 = Except.ok none :=
  ⟨by decide, by decide, by decide, by decide,
    claim5_empty_domain_no_solution cw5w (by decide) 0 (by decide) (by decide) 100 (by decide)⟩

/-- Domain state after revising variable 0 of `cw6w` against 1. -/
def d6w' : Doms := updateD d6w 0 [['a','a']]

theorem claim7_witness :
    revise cw6w d6w 0 1 = Except.ok (true, d6w') ∧
    (d6w' 0).length ≠ 0 ∧ 1 ∈ cw6w.neighbors 0 ∧
    ac3Loop cw6w 51 d6w ([] ++ [(0, 1)]) =
      ac3Loop cw6w 50 d6w'
        ([] ++ ((cw6w.neighbors 0).filter (fun z => z != 1)).map (fun z => (z, 0))) :=
  ⟨rfl, by decide, by decide,
    ((claim7_ac3_steps cw6w 50).2.1 d6w [] 0 1 true d6w' rfl).2.2 rfl (by decide) (by decide)⟩
